import Mathlib

set_option maxRecDepth 1000000

/-!
Verification development for the materialized-view synchronization engine of
the django-materialized-view repository.

The embedding translates the Python sources into executable Lean definitions:

* strings are modeled as `List Char` (`Str`), with UTF-8 encoding to bytes
  where the source hashes them;
* `hashlib.md5(...).hexdigest()` is modeled by a full executable MD5
  (`md5hex`), validated against standard test vectors;
* the Python `%` string-formatting operator (as used on view definitions,
  which contain only `%s` conversions produced by the ORM, plus `%%`
  escapes) is modeled by `pyFormat`;
* Django model/ORM calls are modeled by explicit state: the migration
  ledger is a `List MaterializedViewMigrations`, the set of materialized
  views physically present in the database is a list of names, and the
  dependency edges reported by the pg_depend catalog query are an input
  `List (Str × Str)` of (dependent view, referenced relation) pairs;
* database DDL outcomes follow the state: CREATE fails with an
  "already exists" error when the view is present, and with a
  "does not exist" error when one of the relations listed in the
  definition record (`refs`) is absent; DROP without CASCADE fails with an
  InternalError when a present view depends on the dropped one;
* Python exceptions are modeled by `Option`/`Except` results; unbounded
  recursion in the source (the create_views retry loop and the
  dependency-graph walk) is modeled with an explicit fuel parameter,
  `none` standing for a run that does not terminate or raises;
* Python sets are modeled as duplicate-free lists in insertion order
  (iteration order of a Python set is unspecified; the model fixes one
  order), and the defaultdict recreation-priority map is an association
  list in first-touch order.
-/

/-! ## Strings and character utilities -/

abbrev Str := List Char

def quoteChar : Char := Char.ofNat 34

def spaceChar : Char := Char.ofNat 32

def newlineChar : Char := Char.ofNat 10

def aposChar : Char := Char.ofNat 39

def underscoreChar : Char := Char.ofNat 95

def percentChar : Char := Char.ofNat 37

def sChar : Char := Char.ofNat 115

/-- The characters removed by `__get_hash_from_string` before hashing:
double quote, space, newline, single quote. -/
def strippedChar (c : Char) : Bool :=
  c == quoteChar || c == spaceChar || c == newlineChar || c == aposChar

/-- The normalization performed by `__get_hash_from_string`:
`string.replace(quote, empty).replace(space, empty).replace(newline, empty)
.replace(apos, empty).lower()`.  The four sequential replacements equal one
filter; `.lower()` is modeled per character by `Char.toLower`. -/
def pyNormalize (s : Str) : Str :=
  (s.filter (fun c => !strippedChar c)).map Char.toLower

/-- Python `str.strip()` whitespace set (space, tab, newline, carriage
return, vertical tab, form feed), used by
`__get_cleaned_view_definition_value`. -/
def pyStripChar (c : Char) : Bool :=
  c.toNat == 32 || c.toNat == 9 || c.toNat == 10 || c.toNat == 13 ||
    c.toNat == 11 || c.toNat == 12

/-- Python `str.strip()`: drop leading and trailing whitespace. -/
def pyStrip (s : Str) : Str :=
  ((s.dropWhile pyStripChar).reverse.dropWhile pyStripChar).reverse

/-- Python `%` formatting restricted to the conversions that occur in this
codebase: `%s` consumes one positional argument, `%%` produces a literal
percent sign.  Any other conversion, a trailing lone percent, a missing
argument, or arguments left over at the end raise in Python and are
modeled as `none`. -/
def pyFormatAux : Str → List Str → Option Str
  | [], [] => some []
  | [], _ :: _ => none
  | c :: rest, args =>
    if c == percentChar then
      match rest with
      | [] => none
      | d :: rest2 =>
        if d == percentChar then
          (pyFormatAux rest2 args).map (fun t => percentChar :: t)
        else if d == sChar then
          match args with
          | [] => none
          | a :: args2 => (pyFormatAux rest2 args2).map (fun t => a ++ t)
        else none
    else
      (pyFormatAux rest args).map (fun t => c :: t)

/-- `text % args` in Python, for the fragment described at `pyFormatAux`. -/
def pyFormat (s : Str) (args : List Str) : Option Str := pyFormatAux s args

/-- `MaterializedViewsProcessor.__get_view_name`: join app label and model
name with an underscore. -/
def get_view_name (app_label model_name : Str) : Str :=
  app_label ++ underscoreChar :: model_name

/-- Split a list at the last occurrence of `sep`: Python
`full.rsplit(sep, 1)` producing exactly two parts, `none` when `sep` does
not occur (in which case the Python tuple unpacking raises). -/
def splitAtLastSep (sep : Char) : Str → Option (Str × Str)
  | [] => none
  | c :: rest =>
    match splitAtLastSep sep rest with
    | some (l, r) => some (c :: l, r)
    | none => if c == sep then some ([], rest) else none

/-- `MaterializedViewsProcessor.__separate_app_name_and_view_name`:
`full_view_name.rsplit(underscore, 1)`. -/
def separate_app_name_and_view_name (full_view_name : Str) :
    Option (Str × Str) :=
  splitAtLastSep underscoreChar full_view_name

/-! ## MD5 (hashlib.md5(...).hexdigest()) -/

def w32 : Nat := 4294967296

def md5K : List Nat :=
  [0xd76aa478, 0xe8c7b756, 0x242070db, 0xc1bdceee,
   0xf57c0faf, 0x4787c62a, 0xa8304613, 0xfd469501,
   0x698098d8, 0x8b44f7af, 0xffff5bb1, 0x895cd7be,
   0x6b901122, 0xfd987193, 0xa679438e, 0x49b40821,
   0xf61e2562, 0xc040b340, 0x265e5a51, 0xe9b6c7aa,
   0xd62f105d, 0x02441453, 0xd8a1e681, 0xe7d3fbc8,
   0x21e1cde6, 0xc33707d6, 0xf4d50d87, 0x455a14ed,
   0xa9e3e905, 0xfcefa3f8, 0x676f02d9, 0x8d2a4c8a,
   0xfffa3942, 0x8771f681, 0x6d9d6122, 0xfde5380c,
   0xa4beea44, 0x4bdecfa9, 0xf6bb4b60, 0xbebfbc70,
   0x289b7ec6, 0xeaa127fa, 0xd4ef3085, 0x04881d05,
   0xd9d4d039, 0xe6db99e5, 0x1fa27cf8, 0xc4ac5665,
   0xf4292244, 0x432aff97, 0xab9423a7, 0xfc93a039,
   0x655b59c3, 0x8f0ccc92, 0xffeff47d, 0x85845dd1,
   0x6fa87e4f, 0xfe2ce6e0, 0xa3014314, 0x4e0811a1,
   0xf7537e82, 0xbd3af235, 0x2ad7d2bb, 0xeb86d391]

def md5S : List Nat :=
  [7, 12, 17, 22, 7, 12, 17, 22, 7, 12, 17, 22, 7, 12, 17, 22,
   5, 9, 14, 20, 5, 9, 14, 20, 5, 9, 14, 20, 5, 9, 14, 20,
   4, 11, 16, 23, 4, 11, 16, 23, 4, 11, 16, 23, 4, 11, 16, 23,
   6, 10, 15, 21, 6, 10, 15, 21, 6, 10, 15, 21, 6, 10, 15, 21]

def rotl32 (x n : Nat) : Nat :=
  (Nat.shiftLeft x n + Nat.shiftRight x (32 - n)) % w32

def not32 (x : Nat) : Nat := Nat.xor x (w32 - 1)

def md5PadZeros (len : Nat) : Nat := (64 + 56 - ((len + 1) % 64)) % 64

def md5Pad (msg : List Nat) : List Nat :=
  msg ++ 0x80 :: List.replicate (md5PadZeros msg.length) 0 ++
    (List.range 8).map (fun i => Nat.shiftRight (msg.length * 8) (8 * i) % 256)

def bytesToWordsAux : Nat → List Nat → List Nat
  | 0, _ => []
  | _ + 1, [] => []
  | fuel + 1, b0 :: rest =>
    let b1 := rest.headD 0
    let b2 := (rest.drop 1).headD 0
    let b3 := (rest.drop 2).headD 0
    (b0 + b1 * 256 + b2 * 65536 + b3 * 16777216) :: bytesToWordsAux fuel (rest.drop 3)

def bytesToWords (bs : List Nat) : List Nat := bytesToWordsAux bs.length bs

def md5F (i b c d : Nat) : Nat :=
  if i < 16 then Nat.lor (Nat.land b c) (Nat.land (not32 b) d)
  else if i < 32 then Nat.lor (Nat.land d b) (Nat.land (not32 d) c)
  else if i < 48 then Nat.xor b (Nat.xor c d)
  else Nat.xor c (Nat.lor b (not32 d))

def md5G (i : Nat) : Nat :=
  if i < 16 then i
  else if i < 32 then (5 * i + 1) % 16
  else if i < 48 then (3 * i + 5) % 16
  else (7 * i) % 16

def md5Step (m : List Nat) (st : Nat × Nat × Nat × Nat) (i : Nat) :
    Nat × Nat × Nat × Nat :=
  let (a, b, c, d) := st
  let f := (md5F i b c d + a + (md5K.getD i 0) + m.getD (md5G i) 0) % w32
  (d, (b + rotl32 f (md5S.getD i 0)) % w32, b, c)

def md5Chunk (st : Nat × Nat × Nat × Nat) (m : List Nat) :
    Nat × Nat × Nat × Nat :=
  let (a0, b0, c0, d0) := st
  let (a, b, c, d) := (List.range 64).foldl (md5Step m) (a0, b0, c0, d0)
  ((a0 + a) % w32, (b0 + b) % w32, (c0 + c) % w32, (d0 + d) % w32)

def chunks64 : Nat → List Nat → List (List Nat)
  | 0, _ => []
  | _ + 1, [] => []
  | fuel + 1, l => l.take 64 :: chunks64 fuel (l.drop 64)

def md5State (bytes : List Nat) : Nat × Nat × Nat × Nat :=
  let padded := md5Pad bytes
  (chunks64 padded.length padded).foldl
    (fun st chunk => md5Chunk st (bytesToWords chunk))
    (0x67452301, 0xefcdab89, 0x98badcfe, 0x10325476)

def hexDigit (n : Nat) : Char :=
  if n < 10 then Char.ofNat (48 + n) else Char.ofNat (87 + n)

def wordToHexLE (x : Nat) : List Char :=
  (List.range 4).foldr
    (fun i acc =>
      hexDigit (Nat.shiftRight x (8 * i) % 256 / 16) ::
        hexDigit (Nat.shiftRight x (8 * i) % 256 % 16) :: acc) []

/-- MD5 hex digest of a byte list.  Validated against the standard test
vectors (empty string, abc, the 448-bit boundary cases, two-chunk
messages). -/
def md5hexBytes (bytes : List Nat) : List Char :=
  let (a, b, c, d) := md5State bytes
  wordToHexLE a ++ wordToHexLE b ++ wordToHexLE c ++ wordToHexLE d

/-- UTF-8 encoding of one character (Python `str.encode()`). -/
def utf8EncodeChar (c : Char) : List Nat :=
  let n := c.toNat
  if n < 128 then [n]
  else if n < 2048 then [192 + n / 64, 128 + n % 64]
  else if n < 65536 then [224 + n / 4096, 128 + n / 64 % 64, 128 + n % 64]
  else [240 + n / 262144, 128 + n / 4096 % 64, 128 + n / 64 % 64, 128 + n % 64]

def utf8Encode (s : Str) : List Nat := s.flatMap utf8EncodeChar

def md5hex (s : Str) : Str := md5hexBytes (utf8Encode s)

/-- `MaterializedViewsProcessor.__get_hash_from_string`: normalize, then
`hashlib.md5(string.encode()).hexdigest()`. -/
def get_hash_from_string (s : Str) : Str := md5hex (pyNormalize s)

/-! ## Migration ledger (models.MaterializedViewMigrations) -/

/-- One row of the MaterializedViewMigrations table.  The auto timestamp
and primary key play no role in any claim and are omitted. -/
structure MaterializedViewMigrations where
  app : Str
  view_name : Str
  hash : Str
  deleted : Bool
deriving DecidableEq, Repr

/-- Row predicate for `.filter(app=a, view_name=m, deleted=False)`. -/
def isActiveFor (a m : Str) (r : MaterializedViewMigrations) : Bool :=
  r.app == a && r.view_name == m && !r.deleted

/-- The active rows of the ledger for one (app, view_name) pair. -/
def activeFor (ledger : List MaterializedViewMigrations) (a m : Str) :
    List MaterializedViewMigrations :=
  ledger.filter (isActiveFor a m)

/-- `MaterializedViewMigrations.save`: when the new row is active, first
`.filter(app=.., view_name=.., deleted=False).update(deleted=True)`, then
insert the new row. -/
def saveMigration (ledger : List MaterializedViewMigrations)
    (r : MaterializedViewMigrations) : List MaterializedViewMigrations :=
  let ledger2 :=
    if r.deleted then ledger
    else ledger.map (fun x =>
      if isActiveFor r.app r.view_name x then { x with deleted := true } else x)
  ledger2 ++ [r]

/-- `.filter(app=a, view_name=m).update(deleted=True)` as performed by
`delete_views` after a successful drop. -/
def markPairDeleted (ledger : List MaterializedViewMigrations) (a m : Str) :
    List MaterializedViewMigrations :=
  ledger.map (fun x =>
    if x.app == a && x.view_name == m then { x with deleted := true } else x)

/-- `MaterializedViewsProcessor.__get_previous_view_definition_hash`:
`.objects.get(app=.., view_name=.., deleted=False)`; `DoesNotExist` gives
`None`, more than one match raises (`MultipleObjectsReturned`), modeled by
the outer `none`. -/
def get_previous_view_definition_hash
    (ledger : List MaterializedViewMigrations) (a m : Str) :
    Option (Option Str) :=
  match activeFor ledger a m with
  | [] => some none
  | [r] => some (some r.hash)
  | _ :: _ :: _ => none

/-! ## Refresh log (base_model.MaterializedViewModel.refresh) -/

/-- One row of the MaterializedViewRefreshLog table.  The duration is the
abstract measured wall time; `none` models the NULL default. -/
structure MaterializedViewRefreshLog where
  view_name : Str
  duration : Option Nat
  failed : Bool
deriving DecidableEq, Repr

/-- `MaterializedViewModel.refresh`: build a log row for the view, run the
REFRESH DDL (whose outcome — a measured duration or an exception — is the
oracle argument), set `duration` on success and `failed` on any exception,
then save the row.  The function is total: the except-branch swallows the
exception, so no exception reaches the caller. -/
def refresh (logs : List MaterializedViewRefreshLog) (view_name : Str)
    (ddl_outcome : Except Unit Nat) : List MaterializedViewRefreshLog :=
  let log : MaterializedViewRefreshLog :=
    { view_name := view_name, duration := none, failed := false }
  let log2 :=
    match ddl_outcome with
    | .ok d => { log with duration := some d }
    | .error _ => { log with failed := true }
  logs ++ [log2]

/-! ## Dependency graph walk (PriorityGraph) -/

/-- A catalog edge: (materialized_view, ref_table) as returned by the
pg_depend query of `__get_related_views`. -/
abbrev Edge := Str × Str

/-- `MaterializedViewsProcessor.__get_ref_views`: the direct dependents of
`view_name`, in catalog order. -/
def get_ref_views (edges : List Edge) (view_name : Str) : List Str :=
  (edges.filter (fun e => e.2 == view_name)).map (fun e => e.1)

/-- Insert into a Python-set modeled as a duplicate-free list in insertion
order. -/
def insertU (l : List Str) (v : Str) : List Str :=
  if v ∈ l then l else l ++ [v]

/-- `set.update(iterable)` on the list-set model. -/
def unionU (l : List Str) (vs : List Str) : List Str := vs.foldl insertU l

/-- `self.__recreation_priority[view] += inc` on a defaultdict(int) modeled
as an association list in first-touch order: a missing key is created
(also by `+= 0`). -/
def bumpPriority (p : List (Str × Nat)) (v : Str) (inc : Nat) :
    List (Str × Nat) :=
  if (p.find? (fun kv => kv.1 == v)).isSome then
    p.map (fun kv => if kv.1 == v then (kv.1, kv.2 + inc) else kv)
  else p ++ [(v, inc)]

/-- `MaterializedViewsProcessor.__prioritize_view`, defunctionalized: the
`view` argument of the source is always the root the walk started from, so
the state is the dependency story plus the increment total credited to that
root.  `related` is the current related_views list; recursion into each
related view uses its direct dependents.  Fuel bounds the recursion depth;
`none` models the unbounded recursion of the source on a cyclic catalog. -/
def prioritize_view : Nat → List Edge → List Str → List Str × Nat →
    Option (List Str × Nat)
  | 0, _, _, _ => none
  | fuel + 1, edges, related, (story, cnt) =>
    let story2 := if related.isEmpty then story else unionU story related
    let cnt2 := if related.isEmpty then cnt else cnt + 1
    related.foldlM
      (fun st r => prioritize_view fuel edges (get_ref_views edges r) st)
      (story2, cnt2)

/-- `MaterializedViewsProcessor.__get_prioritized_views` with the priority
increment made explicit: returns the dependency story together with the
total increment added to `recreation_priority[view_name]`. -/
def get_prioritized_views (fuel : Nat) (edges : List Edge)
    (view_name : Str) : Option (List Str × Nat) :=
  prioritize_view fuel edges (get_ref_views edges view_name) ([], 0)

/-- Wrapper threading the processor-level priority map, as the source
method does through `self.__recreation_priority`. -/
def get_prioritized_views_p (fuel : Nat) (edges : List Edge)
    (view_name : Str) (p : List (Str × Nat)) :
    Option (List Str × List (Str × Nat)) :=
  (get_prioritized_views fuel edges view_name).map
    (fun sc => (sc.1, bumpPriority p view_name sc.2))

/-! ## Registry and view definitions -/

/-- One registered view definition: the raw text and positional args
returned by the `view_definition` producer, plus `refs`, the relations the
CREATE statement references (the database-side oracle deciding a
"does not exist" failure). -/
structure ViewDefinitionRecord where
  text : Str
  args : List Str
  refs : List Str
deriving DecidableEq, Repr

/-- The dict produced by `__get_current_view_models`, keyed by
(app_label, model_name).  The DBViewsRegistry key of each model is its
db_table, which for these models is `get_view_name app_label model_name`
(the Django default naming, also produced by `get_tablename`). -/
abbrev Registry := List ((Str × Str) × ViewDefinitionRecord)

def registryNames (reg : Registry) : List Str :=
  reg.map (fun e => get_view_name e.1.1 e.1.2)

/-- `DBViewsRegistry[view_name]`; `none` models the KeyError. -/
def lookupRegistry (reg : Registry) (view_name : Str) :
    Option ViewDefinitionRecord :=
  (reg.find? (fun e => get_view_name e.1.1 e.1.2 == view_name)).map
    (fun e => e.2)

/-! ## Processor state -/

/-- The in-memory state of one MaterializedViewsProcessor run together
with the database state it manipulates: the migration ledger and the names
of the materialized views physically present. -/
structure SyncState where
  views_to_be_created : List Str
  views_to_be_recreated : List Str
  views_to_be_deleted : List Str
  created_views : List Str
  recreated_views : List Str
  deleted_views : List Str
  recreation_priority : List (Str × Nat)
  ledger : List MaterializedViewMigrations
  existing : List Str
deriving DecidableEq, Repr

/-! ## Marking phases -/

/-- The hash computed by `mark_to_be_applied_new_views` lines 54-57:
`__get_hash_from_string(actual_view_definition % args if args else
actual_view_definition)` on the stripped definition text. -/
def markHash (vd : ViewDefinitionRecord) : Option Str :=
  let defn := pyStrip vd.text
  if vd.args.isEmpty then some (get_hash_from_string defn)
  else (pyFormat defn vd.args).map get_hash_from_string

/-- One step of the `mark_to_be_applied_new_views` loop: compare the
current definition hash of one registered view with the active ledger
hash; no record gives pending creation, a different hash pending
recreation. `none` models an exception (formatting failure or
MultipleObjectsReturned). -/
def markStep (ledger : List MaterializedViewMigrations)
    (tctr : List Str × List Str) (e : (Str × Str) × ViewDefinitionRecord) :
    Option (List Str × List Str) :=
  let v := get_view_name e.1.1 e.1.2
  match markHash e.2, get_previous_view_definition_hash ledger e.1.1 e.1.2 with
  | some h, some prev =>
    match prev with
    | none => some (insertU tctr.1 v, tctr.2)
    | some ph => if ph = h then some tctr else some (tctr.1, insertU tctr.2 v)
  | _, _ => none

/-- `MaterializedViewsProcessor.mark_to_be_applied_new_views`: the loop of
`markStep` over the registered views. -/
def mark_to_be_applied_new_views (reg : Registry)
    (ledger : List MaterializedViewMigrations) :
    Option (List Str × List Str) :=
  reg.foldlM (markStep ledger) ([], [])

/-- One step of the `mark_to_be_deleted_old_views` loop: an active ledger
row whose joined name is not a registry key is marked for deletion. -/
def markDeleteStep (reg : Registry) (td : List Str)
    (r : MaterializedViewMigrations) : List Str :=
  if r.deleted then td
  else if get_view_name r.app r.view_name ∈ registryNames reg then td
  else insertU td (get_view_name r.app r.view_name)

/-- `MaterializedViewsProcessor.mark_to_be_deleted_old_views`: the loop of
`markDeleteStep` over the active ledger rows. -/
def mark_to_be_deleted_old_views (reg : Registry)
    (ledger : List MaterializedViewMigrations) : List Str :=
  ledger.foldl (markDeleteStep reg) []

/-! ## DDL execution -/

/-- `MaterializedViewsProcessor._create_view`.  Outcomes: the CREATE
raises "already exists" when the view is present (reclassify to pending
recreation and report failure); it raises "does not exist" when a
referenced relation is absent (report failure, no state change); otherwise
the view is created and an active ledger row is saved whose hash is
`__get_hash_from_string(view_definition % args)`.  `none` models a raised
exception (registry KeyError, rsplit failure, formatting failure). -/
def create_view (reg : Registry) (st : SyncState) (view_name : Str) :
    Option (SyncState × Bool) :=
  match lookupRegistry reg view_name with
  | none => none
  | some vd =>
    let defn := pyStrip vd.text
    if view_name ∈ st.existing then
      some ({ st with
                views_to_be_recreated := insertU st.views_to_be_recreated view_name,
                views_to_be_created := st.views_to_be_created.erase view_name },
            false)
    else if !vd.refs.all (fun r => r ∈ st.existing) then
      some (st, false)
    else
      match separate_app_name_and_view_name view_name, pyFormat defn vd.args with
      | some am, some formatted =>
        some ({ st with
                  existing := insertU st.existing view_name,
                  ledger := saveMigration st.ledger
                    ⟨am.1, am.2, get_hash_from_string formatted, false⟩ },
              true)
      | _, _ => none

/-- Transitive dependents of the views in the worklist, used for the
CASCADE drop semantics. -/
def dependentsClosure : Nat → List Edge → List Str → List Str →
    Option (List Str)
  | 0, _, _, _ => none
  | _ + 1, _, acc, [] => some acc
  | fuel + 1, edges, acc, v :: todo =>
    if v ∈ acc then dependentsClosure fuel edges acc todo
    else dependentsClosure fuel edges (acc ++ [v]) (todo ++ get_ref_views edges v)

/-- DROP MATERIALIZED VIEW IF EXISTS name CASCADE: removes the view and
every transitive dependent from the database. -/
def dropCascade (fuel : Nat) (edges : List Edge) (existing : List Str)
    (v : Str) : Option (List Str) :=
  (dependentsClosure fuel edges [] [v]).map
    (fun cl => existing.filter (fun w => w ∉ cl))

/-- The InternalError raised when a DROP without CASCADE hits dependent
objects. -/
inductive DBErr where
  | internalDependency (view : Str)
deriving DecidableEq, Repr

/-- `MaterializedViewsProcessor._delete_view`.  A plain drop succeeds
unless the view is present and some present view depends on it; on that
InternalError the processor fetches the prioritized dependents and retries
with CASCADE exactly when all of them are already pending deletion,
re-raising the original error otherwise.  The outer `none` models fuel
exhaustion of the unbounded source recursion; `Except.error` is a raised
database error. -/
def delete_view (fuel : Nat) (edges : List Edge) (st : SyncState)
    (view_name : Str) (cascade : Bool) :
    Option (Except DBErr (SyncState × Bool)) :=
  if cascade then
    (dropCascade fuel edges st.existing view_name).map
      (fun ex => .ok ({ st with existing := ex }, true))
  else if view_name ∈ st.existing &&
      (get_ref_views edges view_name).any (fun d => d ∈ st.existing) then
    match get_prioritized_views_p fuel edges view_name st.recreation_priority with
    | none => none
    | some sp =>
      let st2 := { st with recreation_priority := sp.2 }
      if sp.1.isEmpty then some (.error (.internalDependency view_name))
      else if sp.1.all (fun w => w ∈ st2.views_to_be_deleted) then
        (dropCascade fuel edges st2.existing view_name).map
          (fun ex => .ok ({ st2 with existing := ex }, true))
      else some (.error (.internalDependency view_name))
  else
    some (.ok ({ st with existing := st.existing.erase view_name }, true))

/-! ## Execution phases -/

/-- One sweep of `create_views` over a snapshot of the pending-creation
set. -/
def create_views_pass (reg : Registry) :
    List Str → SyncState → Option SyncState
  | [], st => some st
  | v :: rest, st =>
    if v ∈ st.created_views then
      create_views_pass reg rest
        { st with views_to_be_created := st.views_to_be_created.erase v }
    else
      match create_view reg st v with
      | none => none
      | some (st2, false) => create_views_pass reg rest st2
      | some (st2, true) =>
        create_views_pass reg rest
          { st2 with
              created_views := insertU st2.created_views v,
              views_to_be_created := st2.views_to_be_created.erase v }

/-- `MaterializedViewsProcessor.create_views`: sweep, then re-invoke
itself while the pending set is non-empty (fuel bounds the unbounded
source recursion). -/
def create_views : Nat → Registry → SyncState → Option SyncState
  | 0, _, st => if st.views_to_be_created.isEmpty then some st else none
  | fuel + 1, reg, st =>
    if st.views_to_be_created.isEmpty then some st
    else (create_views_pass reg st.views_to_be_created st).bind
      (create_views fuel reg)

/-- Stable insertion of one priority entry into a list sorted descending
by value (later entries go after existing equal values, as Python stable
sort does). -/
def insertDesc (x : Str × Nat) : List (Str × Nat) → List (Str × Nat)
  | [] => [x]
  | y :: ys => if y.2 < x.2 then x :: y :: ys else y :: insertDesc x ys

/-- `sorted(items, key=value, reverse=True)`: stable descending sort. -/
def sortDescByVal (l : List (Str × Nat)) : List (Str × Nat) :=
  l.foldl (fun acc x => insertDesc x acc) []

/-- The worklist expansion of `get_view_list_sorted_by_dependencies`: walk
the growing recreation list, prioritizing each view and appending newly
discovered dependents. -/
def expand_views : Nat → List Edge → List Str → List Str →
    List (Str × Nat) → Option (List Str × List (Str × Nat))
  | _, _, done, [], p => some (done, p)
  | 0, _, _, _ :: _, _ => none
  | fuel + 1, edges, done, v :: todo, p =>
    match get_prioritized_views_p fuel edges v p with
    | none => none
    | some sp =>
      expand_views fuel edges (done ++ [v])
        (todo ++ sp.1.filter (fun d => d ∉ done ++ v :: todo)) sp.2

/-- `MaterializedViewsProcessor.get_view_list_sorted_by_dependencies`:
returns the priority items sorted descending by accumulated priority,
together with the updated processor-level priority map. -/
def get_view_list_sorted_by_dependencies (fuel : Nat) (edges : List Edge)
    (views : List Str) (p : List (Str × Nat)) :
    Option (List (Str × Nat) × List (Str × Nat)) :=
  (expand_views fuel edges [] views p).map
    (fun dp => (sortDescByVal dp.2, dp.2))

/-- `MaterializedViewsProcessor._recreate_view` with delete_cascade=True:
drop with CASCADE, then create; on successful creation move the view to
the recreated list. -/
def recreate_view (fuel : Nat) (edges : List Edge) (reg : Registry)
    (st : SyncState) (v : Str) : Option SyncState :=
  match delete_view fuel edges st v true with
  | none => none
  | some (.error _) => none
  | some (.ok (st2, deleted)) =>
    if !deleted then some st2
    else
      match create_view reg st2 v with
      | none => none
      | some (st3, true) =>
        some { st3 with
                 recreated_views := insertU st3.recreated_views v,
                 views_to_be_recreated := st3.views_to_be_recreated.erase v }
      | some (st3, false) => some st3

def recreate_views_pass (fuel : Nat) (edges : List Edge) (reg : Registry) :
    List Str → SyncState → Option SyncState
  | [], st => some st
  | v :: rest, st =>
    (recreate_view fuel edges reg st v).bind
      (recreate_views_pass fuel edges reg rest)

/-- `MaterializedViewsProcessor.recreate_views`: sort the pending set with
its dependency closure, reset the pending set to the sorted keys, then
recreate each in order. -/
def recreate_views (fuel : Nat) (edges : List Edge) (reg : Registry)
    (st : SyncState) : Option SyncState :=
  match get_view_list_sorted_by_dependencies fuel edges
      st.views_to_be_recreated st.recreation_priority with
  | none => none
  | some sp =>
    recreate_views_pass fuel edges reg (sp.1.map (fun kv => kv.1))
      { st with
          views_to_be_recreated := sp.1.map (fun kv => kv.1),
          recreation_priority := sp.2 }

/-- One sweep of `delete_views` over a snapshot of the pending-deletion
set: drop, then mark every ledger row of the separated pair deleted and
remove the view from the pending set. -/
def delete_views_pass (fuel : Nat) (edges : List Edge) :
    List Str → SyncState → Option SyncState
  | [], st => some st
  | v :: rest, st =>
    match delete_view fuel edges st v false with
    | none => none
    | some (.error _) => none
    | some (.ok (st2, _)) =>
      match separate_app_name_and_view_name v with
      | none => none
      | some am =>
        delete_views_pass fuel edges rest
          { st2 with
              ledger := markPairDeleted st2.ledger am.1 am.2,
              deleted_views := insertU st2.deleted_views v,
              views_to_be_deleted := st2.views_to_be_deleted.erase v }

def delete_views (fuel : Nat) (edges : List Edge) (st : SyncState) :
    Option SyncState :=
  delete_views_pass fuel edges st.views_to_be_deleted st

/-- `MaterializedViewsProcessor.process_materialized_views`: the five
phases in order on a fresh processor, starting from the given database
state. -/
def process_materialized_views (fuel : Nat) (reg : Registry)
    (edges : List Edge) (ledger : List MaterializedViewMigrations)
    (existing : List Str) : Option SyncState :=
  match mark_to_be_applied_new_views reg ledger with
  | none => none
  | some tctr =>
    let st0 : SyncState :=
      ⟨tctr.1, tctr.2, mark_to_be_deleted_old_views reg ledger,
        [], [], [], [], ledger, existing⟩
    (create_views fuel reg st0).bind (fun st1 =>
      (recreate_views fuel edges reg st1).bind (fun st2 =>
        delete_views fuel edges st2))

/-! ## Claim-level specification definitions -/

/-- One rewriting step between definition texts that the spec calls
"differing only in whitespace, quoting, or case": inserting (or, read
backwards, removing) one of the characters the hasher strips, or changing
the case of a non-stripped character. -/
inductive WQCStep : Str → Str → Prop
  | insert (pre post : Str) (c : Char) :
      strippedChar c = true → WQCStep (pre ++ post) (pre ++ c :: post)
  | caseChange (pre post : Str) (c d : Char) :
      strippedChar c = false → strippedChar d = false →
      c.toLower = d.toLower → WQCStep (pre ++ c :: post) (pre ++ d :: post)

/-- Two texts differ only in whitespace, quoting, or case: the equivalence
closure of `WQCStep`. -/
inductive EquivWQC : Str → Str → Prop
  | refl (s : Str) : EquivWQC s s
  | symm {a b : Str} : EquivWQC a b → EquivWQC b a
  | trans {a b c : Str} : EquivWQC a b → EquivWQC b c → EquivWQC a c
  | step {a b : Str} : WQCStep a b → EquivWQC a b

/-- `w` is transitively dependent on `v` through the catalog edges. -/
inductive TransDep (edges : List Edge) : Str → Str → Prop
  | direct {w v : Str} : (w, v) ∈ edges → TransDep edges w v
  | step {w u v : Str} : (u, v) ∈ edges → TransDep edges w u →
      TransDep edges w v

/-- Compositional weight of a related-views list: 0 for an empty list,
otherwise one plus the weights of the direct dependents of each member.
This is the clean recursive characterization the accumulator walk of
`prioritize_view` is compared against. -/
def depWeight : Nat → List Edge → List Str → Option Nat
  | 0, _, _ => none
  | fuel + 1, edges, related =>
    if related.isEmpty then some 0
    else (related.mapM
        (fun r => depWeight fuel edges (get_ref_views edges r))).map
      (fun ws => 1 + ws.sum)

/-- The hash `mark_to_be_applied_new_views` compares against the ledger
(lines 54-57): formatted text when args is non-empty, the raw text
otherwise. -/
def driftHash (text : Str) (args : List Str) : Option Str :=
  if args.isEmpty then some (get_hash_from_string text)
  else (pyFormat text args).map get_hash_from_string

/-- The hash `_create_view` stores in the new ledger row (line 149):
always the formatted text. -/
def recordHash (text : Str) (args : List Str) : Option Str :=
  (pyFormat text args).map get_hash_from_string

/-- A model name (or ledger view_name column) free of the underscore
separator, so that the rsplit in `__separate_app_name_and_view_name`
recovers the pair the name was joined from. -/
def noUnderscore (s : Str) : Prop := underscoreChar ∉ s

/-- A view definition whose hash is computed identically by the drift
check and by the record write: with args it must format cleanly, without
args its stripped text must contain no percent character (otherwise
`text % ()` differs from `text` or raises). -/
def cleanDefinition (vd : ViewDefinitionRecord) : Prop :=
  if vd.args.isEmpty then percentChar ∉ pyStrip vd.text
  else (pyFormat (pyStrip vd.text) vd.args).isSome

/-- The canonical definition hash of a clean definition, agreeing with
both `markHash` and the hash stored by `_create_view`. -/
def definitionHash (vd : ViewDefinitionRecord) : Str :=
  get_hash_from_string
    ((pyFormat (pyStrip vd.text) vd.args).getD (pyStrip vd.text))

/-- At most one active ledger row per (app, view_name) pair: the partial
uniqueness constraint `one_active_view_per_model` of the model Meta. -/
def AtMostOneActive (ledger : List MaterializedViewMigrations) : Prop :=
  ∀ a m : Str, (activeFor ledger a m).length ≤ 1

/-- An entry of the registry is done: its pair has exactly one active
ledger row and that row carries the canonical definition hash. -/
def entryDone (ledger : List MaterializedViewMigrations)
    (e : (Str × Str) × ViewDefinitionRecord) : Prop :=
  (activeFor ledger e.1.1 e.1.2).map (fun r => r.hash) = [definitionHash e.2]

/-- The run invariant threaded through the five phases: every registry
entry is pending creation, pending recreation, or done; entries already in
the created list are done; every active ledger row either belongs to a
registry name or is pending deletion; pending deletions are never registry
names; and every ledger row has an underscore-free view_name column. -/
def SyncInvariant (reg : Registry) (st : SyncState) : Prop :=
  (∀ e ∈ reg,
    get_view_name e.1.1 e.1.2 ∈ st.views_to_be_created ∨
    get_view_name e.1.1 e.1.2 ∈ st.views_to_be_recreated ∨
    entryDone st.ledger e) ∧
  (∀ e ∈ reg, get_view_name e.1.1 e.1.2 ∈ st.created_views →
    entryDone st.ledger e) ∧
  (∀ r ∈ st.ledger, r.deleted = false →
    get_view_name r.app r.view_name ∈ registryNames reg ∨
    get_view_name r.app r.view_name ∈ st.views_to_be_deleted) ∧
  (∀ v ∈ st.views_to_be_deleted, v ∉ registryNames reg) ∧
  (∀ r ∈ st.ledger, noUnderscore r.view_name)

/-- A one-view registry whose model name contains an underscore. -/
def c1Registry : Registry :=
  [((("app".toList), ("my_view".toList)), ⟨("selectz".toList), [], []⟩)]

/-- A one-view registry with an underscore-free model name. -/
def c1GoodRegistry : Registry :=
  [((("app".toList), ("myview".toList)), ⟨("selectz".toList), [], []⟩)]

/-! ## Theorems -/

theorem wqcStep_normalize {a b : Str} (h : WQCStep a b) :
    pyNormalize a = pyNormalize b := by
  cases h with
  | insert pre post c hc =>
    simp [pyNormalize, List.filter_append, List.map_append, List.filter_cons, hc]
  | caseChange pre post c d hc hd he =>
    simp [pyNormalize, List.filter_append, List.map_append, List.filter_cons,
      hc, hd, he]

theorem equivWQC_normalize {a b : Str} (h : EquivWQC a b) :
    pyNormalize a = pyNormalize b := by
  induction h with
  | refl s => rfl
  | symm _ ih => exact ih.symm
  | trans _ _ ih1 ih2 => exact ih1.trans ih2
  | step hs => exact wqcStep_normalize hs

/-- C7: for every pair of definition texts that differ only in whitespace
(spaces or newlines), quote characters, or letter case, the definition
hash function produces the same digest. -/
theorem hash_invariant_under_wqc {a b : Str} (h : EquivWQC a b) :
    get_hash_from_string a = get_hash_from_string b := by
  unfold get_hash_from_string
  rw [equivWQC_normalize h]

/-- Witness for C7 at a concrete pair: uppercase-A-space-b hashes like
lowercase-ab. -/
theorem hash_invariant_under_wqc_witness :
    get_hash_from_string ['A', spaceChar, 'b'] =
      get_hash_from_string ['a', 'b'] :=
  hash_invariant_under_wqc
    (EquivWQC.trans
      (EquivWQC.step
        (WQCStep.caseChange [] [spaceChar, 'b'] 'A' 'a' (by decide)
          (by decide) (by decide)))
      (EquivWQC.symm
        (EquivWQC.step (WQCStep.insert ['a'] ['b'] spaceChar (by decide)))))

theorem splitAtLastSep_none_iff {sep : Char} :
    ∀ {s : Str}, splitAtLastSep sep s = none ↔ sep ∉ s := by
  intro s
  induction s with
  | nil => simp [splitAtLastSep]
  | cons c rest ih =>
    constructor
    · intro h
      unfold splitAtLastSep at h
      cases hrec : splitAtLastSep sep rest with
      | some p => rw [hrec] at h; exact absurd h (by simp)
      | none =>
        rw [hrec] at h
        by_cases hc : c == sep
        · rw [if_pos hc] at h; exact absurd h (by simp)
        · intro hmem
          rcases List.mem_cons.mp hmem with hceq | hmemr
          · exact hc (by simp [hceq])
          · exact (ih.mp hrec) hmemr
    · intro h
      unfold splitAtLastSep
      rw [ih.mpr (fun hm => h (List.mem_cons_of_mem _ hm))]
      have hc : (c == sep) = false := by
        simp only [beq_eq_false_iff_ne, ne_eq]
        intro hceq
        exact h (by simp [hceq])
      simp [hc]

theorem splitAtLastSep_eq_some {sep : Char} :
    ∀ {s l r : Str}, splitAtLastSep sep s = some (l, r) →
      s = l ++ sep :: r ∧ sep ∉ r := by
  intro s
  induction s with
  | nil => intro l r h; simp [splitAtLastSep] at h
  | cons c rest ih =>
    intro l r h
    unfold splitAtLastSep at h
    cases hrec : splitAtLastSep sep rest with
    | some p =>
      rw [hrec] at h
      obtain ⟨hl, hr⟩ : c :: p.1 = l ∧ p.2 = r := by
        have := Option.some.inj h
        exact ⟨congrArg Prod.fst this, congrArg Prod.snd this⟩
      obtain ⟨hrest, hnot⟩ := ih (by rw [hrec])
      subst hl; subst hr
      exact ⟨by rw [hrest]; rfl, hnot⟩
    | none =>
      rw [hrec] at h
      by_cases hc : c == sep
      · rw [if_pos hc] at h
        obtain ⟨hl, hr⟩ : ([] : Str) = l ∧ rest = r := by
          have := Option.some.inj h
          exact ⟨congrArg Prod.fst this, congrArg Prod.snd this⟩
        subst hl; subst hr
        have hcs : c = sep := by simpa using hc
        exact ⟨by rw [hcs]; rfl, splitAtLastSep_none_iff.mp hrec⟩
      · rw [if_neg hc] at h
        exact absurd h (by simp)

theorem splitAtLastSep_append {sep : Char} {r : Str} (hr : sep ∉ r) :
    ∀ l : Str, splitAtLastSep sep (l ++ sep :: r) = some (l, r) := by
  intro l
  induction l with
  | nil =>
    show splitAtLastSep sep (sep :: r) = some ([], r)
    unfold splitAtLastSep
    rw [splitAtLastSep_none_iff.mpr hr]
    simp
  | cons c lrest ih =>
    show splitAtLastSep sep (c :: (lrest ++ sep :: r)) = _
    unfold splitAtLastSep
    rw [ih]

/-- C10: for non-empty app label and model name, splitting a joined view
name recovers the pair exactly when the model name contains no
underscore. -/
theorem separate_inverts_get_view_name (a m : Str) (ha : a ≠ [])
    (hm : m ≠ []) :
    separate_app_name_and_view_name (get_view_name a m) = some (a, m) ↔
      noUnderscore m := by
  constructor
  · intro h
    exact (splitAtLastSep_eq_some h).2
  · intro h
    exact splitAtLastSep_append h a

/-- Witness for C10 at a concrete pair. -/
theorem separate_inverts_get_view_name_witness :
    (("app".toList : Str) ≠ [] ∧ ("view".toList : Str) ≠ []) ∧
      (separate_app_name_and_view_name
          (get_view_name ("app".toList) ("view".toList)) =
          some (("app".toList), ("view".toList)) ↔
        noUnderscore ("view".toList)) :=
  ⟨⟨by decide, by decide⟩,
    separate_inverts_get_view_name _ _ (by decide) (by decide)⟩

theorem isActiveFor_iff {a m : Str} {r : MaterializedViewMigrations} :
    isActiveFor a m r = true ↔
      r.app = a ∧ r.view_name = m ∧ r.deleted = false := by
  simp [isActiveFor, and_assoc]

theorem isActiveFor_marked (a m : Str) (x : MaterializedViewMigrations) :
    isActiveFor a m { x with deleted := true } = false := by
  simp [isActiveFor]

theorem activeFor_nil (a m : Str) : activeFor [] a m = [] := rfl

theorem activeFor_append (L1 L2 : List MaterializedViewMigrations)
    (a m : Str) :
    activeFor (L1 ++ L2) a m = activeFor L1 a m ++ activeFor L2 a m := by
  simp [activeFor, List.filter_append]

theorem activeFor_map_supersede_same (r : MaterializedViewMigrations) :
    ∀ L : List MaterializedViewMigrations,
      activeFor
        (L.map (fun x =>
          if isActiveFor r.app r.view_name x then { x with deleted := true }
          else x))
        r.app r.view_name = [] := by
  intro L
  induction L with
  | nil => rfl
  | cons x L ih =>
    simp only [List.map_cons]
    unfold activeFor at *
    rw [List.filter_cons]
    by_cases h : isActiveFor r.app r.view_name x = true
    · rw [if_pos h, isActiveFor_marked]
      simpa using ih
    · rw [if_neg h]
      have hx : isActiveFor r.app r.view_name x = false := by
        cases hb : isActiveFor r.app r.view_name x
        · rfl
        · exact absurd hb h
      simp only [hx, Bool.false_eq_true, if_false]
      exact ih

theorem activeFor_map_supersede_other (r : MaterializedViewMigrations)
    {a m : Str} (hne : ¬(a = r.app ∧ m = r.view_name)) :
    ∀ L : List MaterializedViewMigrations,
      activeFor
        (L.map (fun x =>
          if isActiveFor r.app r.view_name x then { x with deleted := true }
          else x))
        a m = activeFor L a m := by
  intro L
  induction L with
  | nil => rfl
  | cons x L ih =>
    simp only [List.map_cons]
    unfold activeFor at *
    rw [List.filter_cons, List.filter_cons]
    by_cases h : isActiveFor r.app r.view_name x = true
    · rw [if_pos h, isActiveFor_marked]
      have hx : isActiveFor a m x = false := by
        obtain ⟨h1, h2, _⟩ := isActiveFor_iff.mp h
        cases hb : isActiveFor a m x
        · rfl
        · obtain ⟨g1, g2, _⟩ := isActiveFor_iff.mp hb
          exact absurd ⟨g1.symm.trans h1, g2.symm.trans h2⟩ hne
      simp only [hx, Bool.false_eq_true, if_false]
      exact ih
    · rw [if_neg h]
      cases hx : isActiveFor a m x <;> simp only [Bool.false_eq_true, if_false, if_true] <;> rw [ih]

theorem saveMigration_active_eq (L : List MaterializedViewMigrations)
    (r : MaterializedViewMigrations) (hr : r.deleted = false) :
    saveMigration L r =
      L.map (fun x =>
        if isActiveFor r.app r.view_name x then { x with deleted := true }
        else x) ++ [r] := by
  simp [saveMigration, hr]

theorem activeFor_singleton_self (r : MaterializedViewMigrations)
    (hr : r.deleted = false) : activeFor [r] r.app r.view_name = [r] := by
  unfold activeFor
  rw [List.filter_cons]
  have : isActiveFor r.app r.view_name r = true :=
    isActiveFor_iff.mpr ⟨rfl, rfl, hr⟩
  simp [this]

theorem activeFor_singleton_other (r : MaterializedViewMigrations)
    {a m : Str} (hne : ¬(a = r.app ∧ m = r.view_name)) :
    activeFor [r] a m = [] := by
  unfold activeFor
  rw [List.filter_cons]
  have : isActiveFor a m r = false := by
    cases hb : isActiveFor a m r
    · rfl
    · obtain ⟨g1, g2, _⟩ := isActiveFor_iff.mp hb
      exact absurd ⟨g1.symm, g2.symm⟩ hne
  simp [this]

theorem atMostOneActive_singleton (x : MaterializedViewMigrations) :
    AtMostOneActive [x] := by
  intro a m
  unfold activeFor
  rw [List.filter_cons]
  cases h : isActiveFor a m x <;> simp

/-- C2: saving a new active ledger row supersedes exactly the previously
active rows of the same (app, view_name) pair, touches no other pair, and
preserves the at-most-one-active invariant, leaving the new row as the
single active row of its pair. -/
theorem save_supersedes_exactly (db : List MaterializedViewMigrations)
    (r : MaterializedViewMigrations) (hr : r.deleted = false)
    (hinv : AtMostOneActive db) :
    activeFor (saveMigration db r) r.app r.view_name = [r] ∧
    (∀ a m : Str, ¬(a = r.app ∧ m = r.view_name) →
      activeFor (saveMigration db r) a m = activeFor db a m) ∧
    AtMostOneActive (saveMigration db r) ∧
    (∀ x ∈ db, x.app = r.app → x.view_name = r.view_name →
      x.deleted = false → { x with deleted := true } ∈ saveMigration db r) ∧
    (∀ x ∈ db,
      ¬(x.app = r.app ∧ x.view_name = r.view_name ∧ x.deleted = false) →
      x ∈ saveMigration db r) := by
  have hsame : activeFor (saveMigration db r) r.app r.view_name = [r] := by
    rw [saveMigration_active_eq db r hr, activeFor_append,
      activeFor_map_supersede_same, activeFor_singleton_self r hr]
    rfl
  have hother : ∀ a m : Str, ¬(a = r.app ∧ m = r.view_name) →
      activeFor (saveMigration db r) a m = activeFor db a m := by
    intro a m hne
    rw [saveMigration_active_eq db r hr, activeFor_append,
      activeFor_map_supersede_other r hne, activeFor_singleton_other r hne,
      List.append_nil]
  refine ⟨hsame, hother, ?_, ?_, ?_⟩
  · intro a m
    by_cases hp : a = r.app ∧ m = r.view_name
    · obtain ⟨h1, h2⟩ := hp
      subst h1; subst h2
      rw [hsame]
      exact Nat.le_refl 1
    · rw [hother a m hp]
      exact hinv a m
  · intro x hx h1 h2 h3
    rw [saveMigration_active_eq db r hr]
    refine List.mem_append_left _ ?_
    refine List.mem_map.mpr ⟨x, hx, ?_⟩
    rw [if_pos (isActiveFor_iff.mpr ⟨h1, h2, h3⟩)]
  · intro x hx hne
    rw [saveMigration_active_eq db r hr]
    refine List.mem_append_left _ ?_
    refine List.mem_map.mpr ⟨x, hx, ?_⟩
    have : isActiveFor r.app r.view_name x = false := by
      cases hb : isActiveFor r.app r.view_name x
      · rfl
      · exact absurd (isActiveFor_iff.mp hb) hne
    simp [this]

/-- Witness for C2 at a concrete ledger: the new active row supersedes the
one previously active row of its pair. -/
theorem save_supersedes_exactly_witness :
    activeFor
        (saveMigration [⟨("a".toList), ("b".toList), ("h1".toList), false⟩]
          ⟨("a".toList), ("b".toList), ("h2".toList), false⟩)
        ("a".toList) ("b".toList) =
      [⟨("a".toList), ("b".toList), ("h2".toList), false⟩] :=
  (save_supersedes_exactly _ _ (by decide)
    (atMostOneActive_singleton _)).1

/-- C8: refresh writes exactly one log row whatever the DDL outcome: on
success with the measured duration and failed left false, on an exception
with failed set; the function is total, so no exception reaches the
caller. -/
theorem refresh_always_logs_once (logs : List MaterializedViewRefreshLog)
    (v : Str) (outcome : Except Unit Nat) :
    (refresh logs v outcome).length = logs.length + 1 ∧
    (∀ d : Nat, outcome = .ok d →
      refresh logs v outcome = logs ++ [⟨v, some d, false⟩]) ∧
    (∀ e : Unit, outcome = .error e →
      refresh logs v outcome = logs ++ [⟨v, none, true⟩]) := by
  cases outcome <;> simp [refresh]

/-- Witness for C8: a failing refresh DDL yields one row with the failed
flag and no exception. -/
theorem refresh_always_logs_once_witness :
    refresh [] ("v".toList) (Except.error ()) =
      [⟨("v".toList), none, true⟩] :=
  (refresh_always_logs_once [] ("v".toList) (Except.error ())).2.2 () rfl

theorem mem_insertU_self (l : List Str) (v : Str) : v ∈ insertU l v := by
  unfold insertU
  by_cases h : v ∈ l
  · rwa [if_pos h]
  · rw [if_neg h]
    exact List.mem_append_right _ (List.mem_singleton.mpr rfl)

theorem mem_insertU_iff (l : List Str) (v w : Str) :
    w ∈ insertU l v ↔ w ∈ l ∨ w = v := by
  unfold insertU
  by_cases h : v ∈ l
  · rw [if_pos h]
    constructor
    · exact Or.inl
    · rintro (hw | hw)
      · exact hw
      · rwa [hw]
  · rw [if_neg h]
    simp

/-- C4: a pending creation hitting an "already exists" error is removed
from the pending-creation set, added to the pending-recreation set, the
ledger is untouched, and the call reports failure rather than raising. -/
theorem create_view_already_exists (reg : Registry) (st : SyncState)
    (v : Str) (hreg : (lookupRegistry reg v).isSome)
    (hex : v ∈ st.existing) (hnd : st.views_to_be_created.Nodup) :
    ∃ st2, create_view reg st v = some (st2, false) ∧
      v ∉ st2.views_to_be_created ∧
      v ∈ st2.views_to_be_recreated ∧
      st2.ledger = st.ledger := by
  obtain ⟨vd, hvd⟩ := Option.isSome_iff_exists.mp hreg
  refine ⟨{ st with
              views_to_be_recreated := insertU st.views_to_be_recreated v,
              views_to_be_created := st.views_to_be_created.erase v },
    ?_, ?_, ?_, rfl⟩
  · unfold create_view
    simp only [hvd]
    rw [if_pos hex]
  · intro hmem
    exact ((List.Nodup.mem_erase_iff hnd).mp hmem).1 rfl
  · exact mem_insertU_self _ _

/-- Witness for C4 at a concrete state. -/
theorem create_view_already_exists_witness :
    ∃ st2,
      create_view [((("a".toList), ("b".toList)), ⟨("q".toList), [], []⟩)]
          ⟨[("a_b".toList)], [], [], [], [], [], [], [], [("a_b".toList)]⟩
          ("a_b".toList) = some (st2, false) ∧
        ("a_b".toList) ∉ st2.views_to_be_created ∧
        ("a_b".toList) ∈ st2.views_to_be_recreated ∧
        st2.ledger = [] :=
  create_view_already_exists _ _ _ (by decide) (by decide) (by decide)

theorem pyFormatAux_no_percent {s : Str} (h : percentChar ∉ s) :
    pyFormatAux s [] = some s := by
  induction s with
  | nil => rfl
  | cons c rest ih =>
    unfold pyFormatAux
    have hc : (c == percentChar) = false := by
      simp only [beq_eq_false_iff_ne, ne_eq]
      intro hceq
      exact h (by simp [hceq])
    rw [if_neg (by simp [hc])]
    rw [ih (fun hm => h (List.mem_cons_of_mem _ hm))]
    rfl

/-- C9 counterexample: with an empty args tuple and a definition text
containing an escaped percent, the drift-detection hash (computed from the
text unchanged) differs from the hash stored on creation (computed from
text formatted with the empty tuple, which collapses the escape), refuting
the claimed equivalence of the two computations. -/
theorem drift_and_record_hash_differ :
    driftHash ("a%%b".toList) [] ≠ recordHash ("a%%b".toList) [] := by
  decide

/-- C9 amended: the drift-detection hash and the stored creation hash
agree whenever the args tuple is non-empty or the definition text contains
no percent character. -/
theorem drift_eq_record_hash (text : Str) (args : List Str)
    (h : args ≠ [] ∨ percentChar ∉ text) :
    driftHash text args = recordHash text args := by
  rcases h with h | h
  · unfold driftHash recordHash
    rw [if_neg (by simpa using h)]
  · cases args with
    | cons a args2 =>
      unfold driftHash recordHash
      rw [if_neg (by simp)]
    | nil =>
      unfold driftHash recordHash
      rw [if_pos (by simp)]
      show _ = (pyFormatAux text []).map get_hash_from_string
      rw [pyFormatAux_no_percent h]
      rfl

/-- Witness for C9 amended at a percent-free text. -/
theorem drift_eq_record_hash_witness :
    driftHash ("ab".toList) [] = recordHash ("ab".toList) [] :=
  drift_eq_record_hash _ _ (Or.inr (by decide))

theorem mem_unionU_iff (vs : List Str) :
    ∀ (l : List Str) (w : Str), w ∈ unionU l vs ↔ w ∈ l ∨ w ∈ vs := by
  induction vs with
  | nil => intro l w; simp [unionU]
  | cons v vs ih =>
    intro l w
    show w ∈ unionU (insertU l v) vs ↔ _
    rw [ih, mem_insertU_iff]
    constructor
    · rintro ((h | h) | h)
      · exact Or.inl h
      · exact Or.inr (by simp [h])
      · exact Or.inr (List.mem_cons_of_mem _ h)
    · rintro (h | h)
      · exact Or.inl (Or.inl h)
      · rcases List.mem_cons.mp h with h | h
        · exact Or.inl (Or.inr h)
        · exact Or.inr h

theorem mem_get_ref_views_iff (edges : List Edge) (r w : Str) :
    w ∈ get_ref_views edges r ↔ (w, r) ∈ edges := by
  unfold get_ref_views
  constructor
  · intro h
    obtain ⟨e, he, hew⟩ := List.mem_map.mp h
    obtain ⟨hmem, hsnd⟩ := List.mem_filter.mp he
    have : e = (w, r) := by
      obtain ⟨e1, e2⟩ := e
      simp only at hew
      have h2 : e2 = r := by simpa using hsnd
      rw [hew, h2]
    rwa [this] at hmem
  · intro h
    exact List.mem_map.mpr ⟨(w, r), List.mem_filter.mpr ⟨h, by simp⟩, rfl⟩

theorem prioritize_fold_mono (fuel : Nat) (edges : List Edge)
    (hstep : ∀ (related story : List Str) (cnt : Nat) (story' : List Str)
      (cnt' : Nat),
      prioritize_view fuel edges related (story, cnt) = some (story', cnt') →
      ∀ w ∈ story, w ∈ story') :
    ∀ (l story : List Str) (cnt : Nat) (story' : List Str) (cnt' : Nat),
      l.foldlM
          (fun st r => prioritize_view fuel edges (get_ref_views edges r) st)
          (story, cnt) = some (story', cnt') →
      ∀ w ∈ story, w ∈ story' := by
  intro l
  induction l with
  | nil =>
    intro story cnt story' cnt' h w hw
    simp only [List.foldlM_nil] at h
    obtain ⟨h1, _⟩ := Prod.mk.injEq .. ▸ Option.some.inj h
    exact h1 ▸ hw
  | cons r l ih =>
    intro story cnt story' cnt' h w hw
    simp only [List.foldlM_cons] at h
    obtain ⟨⟨s1, c1⟩, hs1, hrest⟩ := Option.bind_eq_some.mp h
    exact ih s1 c1 story' cnt' hrest w (hstep _ _ _ _ _ hs1 w hw)

theorem prioritize_view_story_mono :
    ∀ (fuel : Nat) (edges : List Edge) (related story : List Str)
      (cnt : Nat) (story' : List Str) (cnt' : Nat),
      prioritize_view fuel edges related (story, cnt) = some (story', cnt') →
      ∀ w ∈ story, w ∈ story' := by
  intro fuel
  induction fuel with
  | zero =>
    intro edges related story cnt story' cnt' h
    simp [prioritize_view] at h
  | succ fuel ih =>
    intro edges related story cnt story' cnt' h w hw
    unfold prioritize_view at h
    refine prioritize_fold_mono fuel edges
      (fun rel s c s' c' hs => ih edges rel s c s' c' hs) related _ _ _ _ h w ?_
    by_cases hrel : related.isEmpty
    · simpa [hrel] using hw
    · simp only [hrel, Bool.false_eq_true, if_false]
      exact (mem_unionU_iff related story w).mpr (Or.inl hw)

theorem prioritize_view_related_subset (fuel : Nat) (edges : List Edge)
    (related story : List Str) (cnt : Nat) (story' : List Str) (cnt' : Nat)
    (h : prioritize_view (fuel + 1) edges related (story, cnt) =
      some (story', cnt')) :
    ∀ w ∈ related, w ∈ story' := by
  intro w hw
  unfold prioritize_view at h
  have hrel : related.isEmpty = false := by
    cases related with
    | nil => cases hw
    | cons a l => rfl
  rw [hrel] at h
  simp only [Bool.false_eq_true, if_false] at h
  exact prioritize_fold_mono fuel edges
    (fun rel s c s' c' hs => prioritize_view_story_mono fuel edges rel s c s' c' hs)
    related _ _ _ _ h w ((mem_unionU_iff related story w).mpr (Or.inr hw))

/-- C3: when a plain drop of a pending-deletion view is blocked by a
present dependent, the delete succeeds via a retried DROP with CASCADE iff
every view in the prioritized dependent story is itself pending deletion;
when at least one is not, the original InternalError is re-raised. -/
theorem delete_view_blocked_iff (fuel : Nat) (edges : List Edge)
    (st : SyncState) (v : Str) (story : List Str) (p2 : List (Str × Nat))
    (hex : v ∈ st.existing)
    (hdep : ∃ d ∈ get_ref_views edges v, d ∈ st.existing)
    (hstory : get_prioritized_views_p fuel edges v st.recreation_priority =
      some (story, p2)) :
    ((∀ w ∈ story, w ∈ st.views_to_be_deleted) →
      ∀ ex : List Str, dropCascade fuel edges st.existing v = some ex →
        delete_view fuel edges st v false =
          some (.ok ({ st with recreation_priority := p2, existing := ex },
            true))) ∧
    ((∃ w ∈ story, w ∉ st.views_to_be_deleted) →
      delete_view fuel edges st v false =
        some (.error (.internalDependency v))) := by
  obtain ⟨d, hd, hdex⟩ := hdep
  have hcond : (v ∈ st.existing &&
      (get_ref_views edges v).any (fun w => w ∈ st.existing)) = true := by
    rw [Bool.and_eq_true]
    exact ⟨by simpa using hex, List.any_eq_true.mpr ⟨d, hd, by simpa using hdex⟩⟩
  have hdstory : d ∈ story := by
    obtain ⟨sc, hsc, heq⟩ := Option.map_eq_some'.mp hstory
    obtain ⟨h1, _⟩ := Prod.mk.injEq .. ▸ heq.symm
    cases fuel with
    | zero => simp [get_prioritized_views, prioritize_view] at hsc
    | succ fuel =>
      exact h1 ▸ prioritize_view_related_subset fuel edges _ _ _ _ _ hsc d hd
  have hne : story.isEmpty = false := by
    cases story with
    | nil => cases hdstory
    | cons a l => rfl
  constructor
  · intro hall ex hcasc
    unfold delete_view
    rw [if_neg (by simp), if_pos hcond, hstory]
    simp only [hne, Bool.false_eq_true, if_false]
    rw [if_pos (List.all_eq_true.mpr (fun w hw => by simpa using hall w hw))]
    show (dropCascade fuel edges st.existing v).map _ = _
    rw [hcasc]
    rfl
  · intro ⟨w, hw, hnot⟩
    unfold delete_view
    rw [if_neg (by simp), if_pos hcond, hstory]
    simp only [hne, Bool.false_eq_true, if_false]
    rw [if_neg ?hcond2]
    case hcond2 =>
      intro hall
      exact hnot (by simpa using List.all_eq_true.mp hall w hw)

/-- Witness for C3: a view blocked by one dependent that is itself pending
deletion is deleted via cascade. -/
theorem delete_view_blocked_iff_witness :
    delete_view 10 [(("b".toList), ("a".toList))]
        ⟨[], [], [("b".toList)], [], [], [], [], [],
          [("a".toList), ("b".toList)]⟩
        ("a".toList) false =
      some (.ok
        (⟨[], [], [("b".toList)], [], [], [], [(("a".toList), 1)], [], []⟩,
          true)) :=
  (delete_view_blocked_iff 10 [(("b".toList), ("a".toList))]
      ⟨[], [], [("b".toList)], [], [], [], [], [],
        [("a".toList), ("b".toList)]⟩
      ("a".toList) [("b".toList)] [(("a".toList), 1)]
      (by decide) (by decide) (by decide)).1
    (by decide) [] (by decide)

theorem prioritize_fold_sound (fuel : Nat) (edges : List Edge)
    (hstep : ∀ (related story : List Str) (cnt : Nat) (story' : List Str)
      (cnt' : Nat),
      prioritize_view fuel edges related (story, cnt) = some (story', cnt') →
      ∀ w ∈ story', w ∈ story ∨ w ∈ related ∨
        ∃ r ∈ related, TransDep edges w r) :
    ∀ (l story : List Str) (cnt : Nat) (story' : List Str) (cnt' : Nat),
      l.foldlM
          (fun st r => prioritize_view fuel edges (get_ref_views edges r) st)
          (story, cnt) = some (story', cnt') →
      ∀ w ∈ story', w ∈ story ∨ ∃ r ∈ l, TransDep edges w r := by
  intro l
  induction l with
  | nil =>
    intro story cnt story' cnt' h w hw
    simp only [List.foldlM_nil] at h
    obtain ⟨h1, _⟩ := Prod.mk.injEq .. ▸ Option.some.inj h
    exact Or.inl (h1 ▸ hw)
  | cons r l ih =>
    intro story cnt story' cnt' h w hw
    simp only [List.foldlM_cons] at h
    obtain ⟨⟨s1, c1⟩, hs1, hrest⟩ := Option.bind_eq_some.mp h
    rcases ih s1 c1 story' cnt' hrest w hw with hmem | ⟨r', hr', hdep⟩
    · rcases hstep _ _ _ _ _ hs1 w hmem with hmem2 | hrel | ⟨u, hu, hdep⟩
      · exact Or.inl hmem2
      · exact Or.inr ⟨r, List.mem_cons_self .., TransDep.direct
          ((mem_get_ref_views_iff edges r w).mp hrel)⟩
      · exact Or.inr ⟨r, List.mem_cons_self ..,
          TransDep.step ((mem_get_ref_views_iff edges r u).mp hu) hdep⟩
    · exact Or.inr ⟨r', List.mem_cons_of_mem _ hr', hdep⟩

theorem prioritize_view_story_sound :
    ∀ (fuel : Nat) (edges : List Edge) (related story : List Str)
      (cnt : Nat) (story' : List Str) (cnt' : Nat),
      prioritize_view fuel edges related (story, cnt) = some (story', cnt') →
      ∀ w ∈ story', w ∈ story ∨ w ∈ related ∨
        ∃ r ∈ related, TransDep edges w r := by
  intro fuel
  induction fuel with
  | zero =>
    intro edges related story cnt story' cnt' h
    simp [prioritize_view] at h
  | succ fuel ih =>
    intro edges related story cnt story' cnt' h w hw
    unfold prioritize_view at h
    have hfold := prioritize_fold_sound fuel edges
      (fun rel s c s' c' hs => ih edges rel s c s' c' hs) related _ _ _ _ h w hw
    rcases hfold with hmem | ⟨r, hr, hdep⟩
    · by_cases hrel : related.isEmpty
      · simp only [hrel, if_true] at hmem
        exact Or.inl hmem
      · simp only [hrel, Bool.false_eq_true, if_false] at hmem
        rcases (mem_unionU_iff related story w).mp hmem with hmem2 | hmem2
        · exact Or.inl hmem2
        · exact Or.inr (Or.inl hmem2)
    · exact Or.inr (Or.inr ⟨r, hr, hdep⟩)

theorem prioritize_fold_subcalls (fuel : Nat) (edges : List Edge) :
    ∀ (l story : List Str) (cnt : Nat) (story' : List Str) (cnt' : Nat),
      l.foldlM
          (fun st r => prioritize_view fuel edges (get_ref_views edges r) st)
          (story, cnt) = some (story', cnt') →
      ∀ r ∈ l, ∃ s c s' c',
        prioritize_view fuel edges (get_ref_views edges r) (s, c) =
          some (s', c') ∧ ∀ w ∈ s', w ∈ story' := by
  intro l
  induction l with
  | nil => intro story cnt story' cnt' h r hr; cases hr
  | cons r0 l ih =>
    intro story cnt story' cnt' h r hr
    simp only [List.foldlM_cons] at h
    obtain ⟨⟨s1, c1⟩, hs1, hrest⟩ := Option.bind_eq_some.mp h
    rcases List.mem_cons.mp hr with hre | hrl
    · subst hre
      exact ⟨story, cnt, s1, c1, hs1,
        prioritize_fold_mono fuel edges
          (fun rel s c s' c' hs =>
            prioritize_view_story_mono fuel edges rel s c s' c' hs)
          l _ _ _ _ hrest⟩
    · exact ih s1 c1 story' cnt' hrest r hrl

theorem prioritize_view_complete :
    ∀ (fuel : Nat) (edges : List Edge) (related story : List Str)
      (cnt : Nat) (story' : List Str) (cnt' : Nat),
      prioritize_view fuel edges related (story, cnt) = some (story', cnt') →
      ∀ r ∈ related, ∀ w : Str, TransDep edges w r → w ∈ story' := by
  intro fuel
  induction fuel with
  | zero =>
    intro edges related story cnt story' cnt' h
    simp [prioritize_view] at h
  | succ fuel ih =>
    intro edges related story cnt story' cnt' h r hr w hdep
    unfold prioritize_view at h
    obtain ⟨s, c, s', c', hsub, hincl⟩ :=
      prioritize_fold_subcalls fuel edges related _ _ _ _ h r hr
    cases hdep with
    | direct hedge =>
      cases fuel with
      | zero => simp [prioritize_view] at hsub
      | succ fuel2 =>
        exact hincl w (prioritize_view_related_subset fuel2 edges _ _ _ _ _
          hsub w ((mem_get_ref_views_iff edges r w).mpr hedge))
    | step hedge hdep2 =>
      exact hincl w (ih edges (get_ref_views edges r) s c s' c' hsub _
        ((mem_get_ref_views_iff edges r _).mpr hedge) w hdep2)

theorem prioritize_fold_weight (fuel : Nat) (edges : List Edge)
    (hstep : ∀ (related story : List Str) (cnt : Nat) (story' : List Str)
      (cnt' : Nat),
      prioritize_view fuel edges related (story, cnt) = some (story', cnt') →
      ∃ w : Nat, depWeight fuel edges related = some w ∧ cnt' = cnt + w) :
    ∀ (l story : List Str) (cnt : Nat) (story' : List Str) (cnt' : Nat),
      l.foldlM
          (fun st r => prioritize_view fuel edges (get_ref_views edges r) st)
          (story, cnt) = some (story', cnt') →
      ∃ ws : List Nat,
        l.mapM (fun r => depWeight fuel edges (get_ref_views edges r)) =
          some ws ∧ cnt' = cnt + ws.sum := by
  intro l
  induction l with
  | nil =>
    intro story cnt story' cnt' h
    simp only [List.foldlM_nil] at h
    obtain ⟨_, h2⟩ := Prod.mk.injEq .. ▸ Option.some.inj h
    refine ⟨[], rfl, ?_⟩
    simp only [List.sum_nil]
    omega
  | cons r l ih =>
    intro story cnt story' cnt' h
    simp only [List.foldlM_cons] at h
    obtain ⟨⟨s1, c1⟩, hs1, hrest⟩ := Option.bind_eq_some.mp h
    obtain ⟨w0, hw0, hc1⟩ := hstep _ _ _ _ _ hs1
    obtain ⟨ws, hws, hcnt⟩ := ih s1 c1 story' cnt' hrest
    refine ⟨w0 :: ws, ?_, ?_⟩
    · rw [List.mapM_cons, hw0, hws]
      rfl
    · simp only [List.sum_cons]
      omega

theorem prioritize_view_weight :
    ∀ (fuel : Nat) (edges : List Edge) (related story : List Str)
      (cnt : Nat) (story' : List Str) (cnt' : Nat),
      prioritize_view fuel edges related (story, cnt) = some (story', cnt') →
      ∃ w : Nat, depWeight fuel edges related = some w ∧ cnt' = cnt + w := by
  intro fuel
  induction fuel with
  | zero =>
    intro edges related story cnt story' cnt' h
    simp [prioritize_view] at h
  | succ fuel ih =>
    intro edges related story cnt story' cnt' h
    unfold prioritize_view at h
    obtain ⟨ws, hws, hcnt⟩ := prioritize_fold_weight fuel edges
      (fun rel s c s' c' hs => ih edges rel s c s' c' hs) related _ _ _ _ h
    by_cases hrel : related.isEmpty
    · have hrelnil : related = [] := by
        cases related with
        | nil => rfl
        | cons a l => simp at hrel
      subst hrelnil
      simp only [List.mapM_nil] at hws
      obtain rfl : ([] : List Nat) = ws := by simpa using hws
      refine ⟨0, ?_, ?_⟩
      · unfold depWeight
        simp
      · simp only [List.isEmpty_nil, if_true, List.sum_nil] at hcnt
        omega
    · refine ⟨1 + ws.sum, ?_, ?_⟩
      · unfold depWeight
        rw [if_neg (by simpa using hrel), hws]
        rfl
      · simp only [hrel, Bool.false_eq_true, if_false] at hcnt
        omega

/-- C5 counterexample: for a view with two direct dependents and no deeper
chain, the prioritization routine credits priority 1, while the transitive
dependent closure contains 2 edges; the two quantities differ, refuting
the claimed equality. -/
theorem prioritize_count_is_not_closure_edge_count :
    get_prioritized_views 10
        [(("a".toList), ("v".toList)), (("b".toList), ("v".toList))]
        ("v".toList) =
      some ([("a".toList), ("b".toList)], 1) ∧
    ([(("a".toList), ("v".toList)), (("b".toList), ("v".toList))].filter
        (fun e => decide (e.2 = ("v".toList) ∨
          e.2 ∈ [("a".toList), ("b".toList)]))).length = 2 ∧
    (1 : Nat) ≠ 2 := by
  decide

/-- C5 amended: for every view on which the walk terminates, the priority
increment equals the compositional dependent weight `depWeight` (0 for no
dependents, otherwise 1 plus the weights of the dependents of each direct
dependent, counted once per dependency path), and the dependency story is
exactly the set of views transitively dependent on the view; a view with
no dependents gets an empty story and increment 0. -/
theorem get_prioritized_views_characterization (fuel : Nat)
    (edges : List Edge) (v : Str) (story : List Str) (cnt : Nat)
    (h : get_prioritized_views fuel edges v = some (story, cnt)) :
    depWeight fuel edges (get_ref_views edges v) = some cnt ∧
    (∀ w : Str, w ∈ story ↔ TransDep edges w v) ∧
    (get_ref_views edges v = [] → story = [] ∧ cnt = 0) := by
  unfold get_prioritized_views at h
  refine ⟨?_, ?_, ?_⟩
  · obtain ⟨w, hw, hcnt⟩ :=
      prioritize_view_weight fuel edges _ _ _ _ _ h
    rwa [show cnt = w by omega]
  · intro w
    constructor
    · intro hw
      rcases prioritize_view_story_sound fuel edges _ _ _ _ _ h w hw with
        hmem | hrel | ⟨r, hr, hdep⟩
      · cases hmem
      · exact TransDep.direct ((mem_get_ref_views_iff edges v w).mp hrel)
      · exact TransDep.step ((mem_get_ref_views_iff edges v r).mp hr) hdep
    · intro hdep
      cases hdep with
      | direct hedge =>
        cases fuel with
        | zero => simp [prioritize_view] at h
        | succ fuel2 =>
          exact prioritize_view_related_subset fuel2 edges _ _ _ _ _ h w
            ((mem_get_ref_views_iff edges v w).mpr hedge)
      | step hedge hdep2 =>
        exact prioritize_view_complete fuel edges _ _ _ _ _ h _
          ((mem_get_ref_views_iff edges v _).mpr hedge) w hdep2
  · intro hnil
    cases fuel with
    | zero => simp [prioritize_view] at h
    | succ fuel2 =>
      unfold prioritize_view at h
      rw [hnil] at h
      simp only [List.isEmpty_nil, if_true, List.foldlM_nil] at h
      obtain ⟨h1, h2⟩ := Prod.mk.injEq .. ▸ Option.some.inj h
      exact ⟨h1.symm, h2.symm⟩

/-- Witness for C5 amended on a concrete one-edge graph. -/
theorem get_prioritized_views_characterization_witness :
    depWeight 10 [(("a".toList), ("v".toList))]
        (get_ref_views [(("a".toList), ("v".toList))] ("v".toList)) =
      some 1 ∧
    (∀ w : Str, w ∈ [("a".toList)] ↔
      TransDep [(("a".toList), ("v".toList))] w ("v".toList)) ∧
    (get_ref_views [(("a".toList), ("v".toList))] ("v".toList) = [] →
      [("a".toList)] = ([] : List Str) ∧ (1 : Nat) = 0) :=
  get_prioritized_views_characterization 10 _ _ _ _ (by decide)

theorem mem_insertDesc (x : Str × Nat) :
    ∀ (l : List (Str × Nat)) (z : Str × Nat),
      z ∈ insertDesc x l ↔ z = x ∨ z ∈ l := by
  intro l
  induction l with
  | nil => intro z; simp [insertDesc]
  | cons y ys ih =>
    intro z
    unfold insertDesc
    by_cases hlt : y.2 < x.2
    · rw [if_pos hlt]
      constructor
      · intro h
        rcases List.mem_cons.mp h with h | h
        · exact Or.inl h
        · exact Or.inr h
      · rintro (h | h)
        · exact h ▸ List.mem_cons_self ..
        · exact List.mem_cons_of_mem _ h
    · rw [if_neg hlt]
      constructor
      · intro h
        rcases List.mem_cons.mp h with h | h
        · exact Or.inr (by simp [h])
        · rcases (ih z).mp h with h | h
          · exact Or.inl h
          · exact Or.inr (List.mem_cons_of_mem _ h)
      · rintro (h | h)
        · exact List.mem_cons_of_mem _ ((ih z).mpr (Or.inl h))
        · rcases List.mem_cons.mp h with h | h
          · exact h ▸ List.mem_cons_self ..
          · exact List.mem_cons_of_mem _ ((ih z).mpr (Or.inr h))

theorem insertDesc_sorted (x : Str × Nat) :
    ∀ l : List (Str × Nat), l.Pairwise (fun a b => b.2 ≤ a.2) →
      (insertDesc x l).Pairwise (fun a b => b.2 ≤ a.2) := by
  intro l
  induction l with
  | nil => intro _; simp [insertDesc]
  | cons y ys ih =>
    intro h
    obtain ⟨hy, hys⟩ := List.pairwise_cons.mp h
    unfold insertDesc
    by_cases hlt : y.2 < x.2
    · rw [if_pos hlt]
      refine List.pairwise_cons.mpr ⟨?_, h⟩
      intro z hz
      rcases List.mem_cons.mp hz with hz | hz
      · exact hz ▸ Nat.le_of_lt hlt
      · exact Nat.le_trans (hy z hz) (Nat.le_of_lt hlt)
    · rw [if_neg hlt]
      refine List.pairwise_cons.mpr ⟨?_, ih hys⟩
      intro z hz
      rcases (mem_insertDesc x ys z).mp hz with hz | hz
      · exact hz ▸ Nat.le_of_not_lt hlt
      · exact hy z hz

theorem sortDescByVal_sorted_from (l : List (Str × Nat)) :
    ∀ acc : List (Str × Nat), acc.Pairwise (fun a b => b.2 ≤ a.2) →
      (l.foldl (fun acc x => insertDesc x acc) acc).Pairwise
        (fun a b => b.2 ≤ a.2) := by
  induction l with
  | nil => intro acc h; exact h
  | cons x l ih =>
    intro acc h
    exact ih (insertDesc x acc) (insertDesc_sorted x acc h)

theorem sortDescByVal_sorted (l : List (Str × Nat)) :
    (sortDescByVal l).Pairwise (fun a b => b.2 ≤ a.2) :=
  sortDescByVal_sorted_from l [] (List.Pairwise.nil)

/-- C6 counterexample: for two input views with no dependents the returned
mapping carries two entries tied at priority 0, so it is not strictly
descending (no entry is strictly greater than the next). -/
theorem sorted_views_not_strictly_descending :
    get_view_list_sorted_by_dependencies 10 [] [("a".toList), ("b".toList)]
        [] =
      some ([(("a".toList), 0), (("b".toList), 0)],
        [(("a".toList), 0), (("b".toList), 0)]) ∧
    ¬ ([(("a".toList), 0), (("b".toList), 0)].Pairwise
        (fun x y => y.2 < x.2)) := by
  decide

/-- C6 amended: for every input set of view names on which the expansion
terminates, the mapping returned by get_view_list_sorted_by_dependencies
is ordered in non-increasing priority order (each entry has priority at
least that of the next); ties carry no guaranteed order. -/
theorem get_view_list_sorted_nonincreasing (fuel : Nat) (edges : List Edge)
    (views : List Str) (p sorted p2 : List (Str × Nat))
    (h : get_view_list_sorted_by_dependencies fuel edges views p =
      some (sorted, p2)) :
    sorted.Pairwise (fun a b => b.2 ≤ a.2) := by
  unfold get_view_list_sorted_by_dependencies at h
  obtain ⟨dp, hdp, heq⟩ := Option.map_eq_some'.mp h
  obtain ⟨h1, _⟩ := Prod.mk.injEq .. ▸ heq
  rw [← h1]
  exact sortDescByVal_sorted dp.2

/-- Witness for C6 amended at a concrete input with a tie. -/
theorem get_view_list_sorted_nonincreasing_witness :
    ([(("a".toList), 0), (("b".toList), 0)] : List (Str × Nat)).Pairwise
      (fun a b => b.2 ≤ a.2) :=
  get_view_list_sorted_nonincreasing 10 [] [("a".toList), ("b".toList)] []
    [(("a".toList), 0), (("b".toList), 0)]
    [(("a".toList), 0), (("b".toList), 0)] (by decide)

theorem map_eq_singleton {α β : Type} {l : List α} {f : α → β} {b : β}
    (h : l.map f = [b]) : ∃ a, l = [a] ∧ f a = b := by
  cases l with
  | nil => simp at h
  | cons a l2 =>
    simp only [List.map_cons, List.cons.injEq] at h
    obtain ⟨h1, h2⟩ := h
    exact ⟨a, by rw [List.map_eq_nil_iff.mp h2], h1⟩

theorem mem_registryNames (reg : Registry)
    (e : (Str × Str) × ViewDefinitionRecord) (he : e ∈ reg) :
    get_view_name e.1.1 e.1.2 ∈ registryNames reg :=
  List.mem_map.mpr ⟨e, he, rfl⟩

theorem nodup_fst_inj {α β : Type} :
    ∀ {l : List (α × β)}, (l.map Prod.fst).Nodup →
      ∀ e1 ∈ l, ∀ e2 ∈ l, e1.1 = e2.1 → e1 = e2 := by
  intro l
  induction l with
  | nil => intro _ e1 h1; cases h1
  | cons x l ih =>
    intro hnd e1 h1 e2 h2 heq
    simp only [List.map_cons, List.nodup_cons] at hnd
    obtain ⟨hx, hnd2⟩ := hnd
    rcases List.mem_cons.mp h1 with h1 | h1 <;>
      rcases List.mem_cons.mp h2 with h2 | h2
    · rw [h1, h2]
    · have hx1 : x.1 = e2.1 := by rw [← h1]; exact heq
      have hm : x.1 ∈ List.map Prod.fst l :=
        List.mem_map.mpr ⟨e2, h2, hx1.symm⟩
      exact absurd hm hx
    · have hx1 : x.1 = e1.1 := by rw [← h2]; exact heq.symm
      have hm : x.1 ∈ List.map Prod.fst l :=
        List.mem_map.mpr ⟨e1, h1, hx1.symm⟩
      exact absurd hm hx
    · exact ih hnd2 e1 h1 e2 h2 heq

theorem get_view_name_inj {a1 m1 a2 m2 : Str} (hm1 : noUnderscore m1)
    (hm2 : noUnderscore m2) (h : get_view_name a1 m1 = get_view_name a2 m2) :
    a1 = a2 ∧ m1 = m2 := by
  have h1 : splitAtLastSep underscoreChar (get_view_name a1 m1) =
      some (a1, m1) := splitAtLastSep_append hm1 a1
  have h2 : splitAtLastSep underscoreChar (get_view_name a2 m2) =
      some (a2, m2) := splitAtLastSep_append hm2 a2
  rw [h] at h1
  have := Option.some.inj (h1.symm.trans h2)
  exact ⟨congrArg Prod.fst this, congrArg Prod.snd this⟩

theorem registry_entry_of_join_eq (reg : Registry)
    (hU : ∀ e ∈ reg, noUnderscore e.1.2)
    (hD : (reg.map Prod.fst).Nodup) :
    ∀ e1 ∈ reg, ∀ e2 ∈ reg,
      get_view_name e1.1.1 e1.1.2 = get_view_name e2.1.1 e2.1.2 → e1 = e2 := by
  intro e1 h1 e2 h2 heq
  obtain ⟨ha, hm⟩ := get_view_name_inj (hU e1 h1) (hU e2 h2) heq
  exact nodup_fst_inj hD e1 h1 e2 h2 (Prod.ext ha hm)

theorem lookupRegistry_spec {reg : Registry} {v : Str}
    {vd : ViewDefinitionRecord} (h : lookupRegistry reg v = some vd) :
    ∃ e ∈ reg, get_view_name e.1.1 e.1.2 = v ∧ e.2 = vd := by
  unfold lookupRegistry at h
  obtain ⟨e, he, heq⟩ := Option.map_eq_some'.mp h
  refine ⟨e, List.mem_of_find?_eq_some he, ?_, heq⟩
  have := List.find?_some he
  simpa using this

theorem lookupRegistry_entry (reg : Registry)
    (hU : ∀ e ∈ reg, noUnderscore e.1.2)
    (hD : (reg.map Prod.fst).Nodup)
    (e : (Str × Str) × ViewDefinitionRecord) (he : e ∈ reg)
    {vd : ViewDefinitionRecord}
    (h : lookupRegistry reg (get_view_name e.1.1 e.1.2) = some vd) :
    vd = e.2 := by
  obtain ⟨e2, he2, hj, hv⟩ := lookupRegistry_spec h
  rw [← hv]
  rw [registry_entry_of_join_eq reg hU hD e2 he2 e he hj]

theorem cleanDefinition_format {vd : ViewDefinitionRecord}
    (h : cleanDefinition vd) :
    ∃ fm, pyFormat (pyStrip vd.text) vd.args = some fm ∧
      get_hash_from_string fm = definitionHash vd ∧
      markHash vd = some (definitionHash vd) := by
  unfold cleanDefinition at h
  by_cases hargs : vd.args.isEmpty
  · rw [if_pos hargs] at h
    have hnil : vd.args = [] := by
      cases hv : vd.args with
      | nil => rfl
      | cons a l => rw [hv] at hargs; simp at hargs
    have hfmt : pyFormat (pyStrip vd.text) vd.args = some (pyStrip vd.text) := by
      rw [hnil]
      exact pyFormatAux_no_percent h
    refine ⟨pyStrip vd.text, hfmt, ?_, ?_⟩
    · unfold definitionHash
      rw [hfmt]
      rfl
    · unfold markHash
      rw [if_pos hargs]
      unfold definitionHash
      rw [hfmt]
      rfl
  · rw [if_neg hargs] at h
    obtain ⟨fm, hfm⟩ := Option.isSome_iff_exists.mp h
    refine ⟨fm, hfm, ?_, ?_⟩
    · unfold definitionHash
      rw [hfm]
      rfl
    · unfold markHash
      rw [if_neg hargs, hfm]
      unfold definitionHash
      rw [hfm]
      rfl

theorem markPairDeleted_not_active (L : List MaterializedViewMigrations)
    (a m : Str) :
    ∀ x ∈ markPairDeleted L a m, x.deleted = false →
      x ∈ L ∧ ¬(x.app = a ∧ x.view_name = m) := by
  intro x hx hact
  obtain ⟨y, hy, heq⟩ := List.mem_map.mp hx
  by_cases hc : (y.app == a && y.view_name == m) = true
  · rw [if_pos hc] at heq
    rw [← heq] at hact
    simp at hact
  · rw [if_neg hc] at heq
    subst heq
    refine ⟨hy, ?_⟩
    intro ⟨h1, h2⟩
    exact hc (by simp [h1, h2])

theorem activeFor_markPairDeleted_same (L : List MaterializedViewMigrations)
    (a m : Str) : activeFor (markPairDeleted L a m) a m = [] := by
  rw [List.eq_nil_iff_forall_not_mem]
  intro x hx
  obtain ⟨hmem, hact⟩ := List.mem_filter.mp hx
  obtain ⟨h1, h2, h3⟩ := isActiveFor_iff.mp hact
  exact (markPairDeleted_not_active L a m x hmem h3).2 ⟨h1, h2⟩

theorem activeFor_markPairDeleted_other
    (L : List MaterializedViewMigrations) {x y a m : Str}
    (hne : ¬(a = x ∧ m = y)) :
    activeFor (markPairDeleted L x y) a m = activeFor L a m := by
  induction L with
  | nil => rfl
  | cons r L ih =>
    unfold markPairDeleted at *
    simp only [List.map_cons]
    unfold activeFor at *
    rw [List.filter_cons, List.filter_cons]
    by_cases hc : (r.app == x && r.view_name == y) = true
    · rw [if_pos hc]
      obtain ⟨h1, h2⟩ : r.app = x ∧ r.view_name = y := by
        rw [Bool.and_eq_true] at hc
        exact ⟨by simpa using hc.1, by simpa using hc.2⟩
      have hr : isActiveFor a m r = false := by
        cases hb : isActiveFor a m r
        · rfl
        · obtain ⟨g1, g2, _⟩ := isActiveFor_iff.mp hb
          exact absurd ⟨g1.symm.trans h1, g2.symm.trans h2⟩ hne
      have hr2 : isActiveFor a m { r with deleted := true } = false :=
        isActiveFor_marked a m r
      simp only [hr, hr2, Bool.false_eq_true, if_false]
      exact ih
    · rw [if_neg hc]
      cases hb : isActiveFor a m r
      · simp only [Bool.false_eq_true, if_false]
        exact ih
      · simp only [if_true]
        rw [ih]

theorem markPairDeleted_view_name (L : List MaterializedViewMigrations)
    (a m : Str) :
    ∀ x ∈ markPairDeleted L a m, ∃ y ∈ L, x.view_name = y.view_name := by
  intro x hx
  obtain ⟨y, hy, heq⟩ := List.mem_map.mp hx
  by_cases hc : (y.app == a && y.view_name == m) = true
  · rw [if_pos hc] at heq
    exact ⟨y, hy, by rw [← heq]⟩
  · rw [if_neg hc] at heq
    exact ⟨y, hy, by rw [← heq]⟩

theorem saveMigration_active_mem (L : List MaterializedViewMigrations)
    (r : MaterializedViewMigrations) (hr : r.deleted = false) :
    ∀ x ∈ saveMigration L r, x.deleted = false → x = r ∨ x ∈ L := by
  intro x hx hact
  rw [saveMigration_active_eq L r hr] at hx
  rcases List.mem_append.mp hx with hx | hx
  · obtain ⟨y, hy, heq⟩ := List.mem_map.mp hx
    by_cases hc : isActiveFor r.app r.view_name y = true
    · rw [if_pos hc] at heq
      rw [← heq] at hact
      simp at hact
    · rw [if_neg hc] at heq
      exact Or.inr (heq ▸ hy)
  · exact Or.inl (List.mem_singleton.mp hx)

theorem saveMigration_view_name (L : List MaterializedViewMigrations)
    (r : MaterializedViewMigrations) :
    ∀ x ∈ saveMigration L r, x.view_name = r.view_name ∨
      ∃ y ∈ L, x.view_name = y.view_name := by
  intro x hx
  unfold saveMigration at hx
  rcases List.mem_append.mp hx with hx | hx
  · by_cases hd : r.deleted
    · rw [if_pos hd] at hx
      exact Or.inr ⟨x, hx, rfl⟩
    · rw [if_neg hd] at hx
      obtain ⟨y, hy, heq⟩ := List.mem_map.mp hx
      by_cases hc : isActiveFor r.app r.view_name y = true
      · rw [if_pos hc] at heq
        exact Or.inr ⟨y, hy, by rw [← heq]⟩
      · rw [if_neg hc] at heq
        exact Or.inr ⟨y, hy, by rw [← heq]⟩
  · exact Or.inl (by rw [List.mem_singleton.mp hx])

theorem create_view_cases (reg : Registry) (st : SyncState) (v : Str)
    {st2 : SyncState} {b : Bool}
    (h : create_view reg st v = some (st2, b)) :
    (b = false ∧
      (st2 = { st with
                 views_to_be_recreated := insertU st.views_to_be_recreated v,
                 views_to_be_created := st.views_to_be_created.erase v } ∨
       st2 = st)) ∨
    (b = true ∧ ∃ vd am fm,
      lookupRegistry reg v = some vd ∧
      separate_app_name_and_view_name v = some am ∧
      pyFormat (pyStrip vd.text) vd.args = some fm ∧ v ∉ st.existing ∧
      st2 = { st with
                existing := insertU st.existing v,
                ledger := saveMigration st.ledger
                  ⟨am.1, am.2, get_hash_from_string fm, false⟩ }) := by
  unfold create_view at h
  cases hlk : lookupRegistry reg v with
  | none => rw [hlk] at h; simp at h
  | some vd =>
    simp only [hlk] at h
    by_cases hex : v ∈ st.existing
    · rw [if_pos hex] at h
      obtain hp := Option.some.inj h
      obtain ⟨h1, h2⟩ := Prod.mk.injEq .. ▸ hp
      exact Or.inl ⟨h2.symm, Or.inl h1.symm⟩
    · rw [if_neg hex] at h
      by_cases hrefs : (!vd.refs.all fun r => decide (r ∈ st.existing)) = true
      · rw [if_pos hrefs] at h
        obtain hp := Option.some.inj h
        obtain ⟨h1, h2⟩ := Prod.mk.injEq .. ▸ hp
        exact Or.inl ⟨h2.symm, Or.inr h1.symm⟩
      · rw [if_neg hrefs] at h
        cases hsep : separate_app_name_and_view_name v with
        | none => simp [hsep] at h
        | some am =>
          cases hfm : pyFormat (pyStrip vd.text) vd.args with
          | none => simp [hsep, hfm] at h
          | some fm =>
            simp only [hsep, hfm] at h
            obtain hp := Option.some.inj h
            obtain ⟨h1, h2⟩ := Prod.mk.injEq .. ▸ hp
            exact Or.inr ⟨h2.symm, vd, am, fm, rfl, rfl, hfm, hex, h1.symm⟩

theorem delete_view_ok_shape (fuel : Nat) (edges : List Edge)
    (st : SyncState) (v : Str) (cascade : Bool) {st2 : SyncState} {b : Bool}
    (h : delete_view fuel edges st v cascade = some (.ok (st2, b))) :
    ∃ p ex, st2 = { st with recreation_priority := p, existing := ex } := by
  unfold delete_view at h
  by_cases hc : cascade = true
  · rw [if_pos hc] at h
    cases hdc : dropCascade fuel edges st.existing v with
    | none => rw [hdc] at h; simp at h
    | some ex =>
      rw [hdc] at h
      obtain hp := Option.some.inj h
      obtain hq := Except.ok.inj hp
      obtain ⟨h1, _⟩ := Prod.mk.injEq .. ▸ hq
      exact ⟨st.recreation_priority, ex, h1.symm⟩
  · rw [if_neg hc] at h
    by_cases hb : (v ∈ st.existing &&
        (get_ref_views edges v).any (fun d => d ∈ st.existing)) = true
    · rw [if_pos hb] at h
      cases hsp : get_prioritized_views_p fuel edges v st.recreation_priority with
      | none => rw [hsp] at h; simp at h
      | some sp =>
        simp only [hsp] at h
        by_cases hne : sp.1.isEmpty
        · rw [if_pos hne] at h
          simp at h
        · rw [if_neg hne] at h
          by_cases hall : (sp.1.all fun w => decide (w ∈ st.views_to_be_deleted)) = true
          · rw [if_pos (by simpa using hall)] at h
            cases hdc : dropCascade fuel edges st.existing v with
            | none => rw [hdc] at h; simp at h
            | some ex =>
              rw [hdc] at h
              obtain hp := Option.some.inj h
              obtain hq := Except.ok.inj hp
              obtain ⟨h1, _⟩ := Prod.mk.injEq .. ▸ hq
              exact ⟨sp.2, ex, h1.symm⟩
          · rw [if_neg (by simpa using hall)] at h
            simp at h
    · rw [if_neg hb] at h
      obtain hp := Option.some.inj h
      obtain hq := Except.ok.inj hp
      obtain ⟨h1, _⟩ := Prod.mk.injEq .. ▸ hq
      exact ⟨st.recreation_priority, st.existing.erase v, h1.symm⟩

theorem bumpPriority_keys (p : List (Str × Nat)) (v : Str) (inc : Nat) :
    (∀ w : Str, w ∈ p.map Prod.fst →
      w ∈ (bumpPriority p v inc).map Prod.fst) ∧
    v ∈ (bumpPriority p v inc).map Prod.fst := by
  unfold bumpPriority
  by_cases h : (p.find? (fun kv => kv.1 == v)).isSome
  · rw [if_pos h]
    have hmap : (p.map (fun kv =>
        if kv.1 == v then (kv.1, kv.2 + inc) else kv)).map Prod.fst =
        p.map Prod.fst := by
      rw [List.map_map]
      refine List.map_congr_left ?_
      intro kv _
      show (if (kv.1 == v) = true then (kv.1, kv.2 + inc) else kv).1 = kv.1
      by_cases hkv : (kv.1 == v) = true
      · rw [if_pos hkv]
      · rw [if_neg hkv]
    rw [hmap]
    obtain ⟨kv, hkv⟩ := Option.isSome_iff_exists.mp h
    have hv : kv.1 = v := by simpa using List.find?_some hkv
    exact ⟨fun w hw => hw,
      hv ▸ List.mem_map.mpr ⟨kv, List.mem_of_find?_eq_some hkv, rfl⟩⟩
  · rw [if_neg h]
    rw [List.map_append]
    exact ⟨fun w hw => List.mem_append_left _ hw,
      List.mem_append_right _ (by simp)⟩

theorem expand_views_keys :
    ∀ (fuel : Nat) (edges : List Edge) (done todo : List Str)
      (p : List (Str × Nat)) (res : List Str) (p2 : List (Str × Nat)),
      expand_views fuel edges done todo p = some (res, p2) →
      (∀ w : Str, w ∈ p.map Prod.fst → w ∈ p2.map Prod.fst) ∧
      (∀ v ∈ todo, v ∈ p2.map Prod.fst) := by
  intro fuel
  induction fuel with
  | zero =>
    intro edges done todo p res p2 h
    cases todo with
    | nil =>
      obtain hp := Option.some.inj h
      obtain ⟨_, h2⟩ := Prod.mk.injEq .. ▸ hp
      exact ⟨fun w hw => h2 ▸ hw, fun v hv => absurd hv (by simp)⟩
    | cons v todo => simp [expand_views] at h
  | succ fuel ih =>
    intro edges done todo p res p2 h
    cases todo with
    | nil =>
      obtain hp := Option.some.inj h
      obtain ⟨_, h2⟩ := Prod.mk.injEq .. ▸ hp
      exact ⟨fun w hw => h2 ▸ hw, fun v hv => absurd hv (by simp)⟩
    | cons v todo =>
      unfold expand_views at h
      cases hsp : get_prioritized_views_p fuel edges v p with
      | none => rw [hsp] at h; simp at h
      | some sp =>
        simp only [hsp] at h
        obtain ⟨hkeys, htodo⟩ := ih edges _ _ _ _ _ h
        obtain ⟨sc, hsc, heq⟩ := Option.map_eq_some'.mp hsp
        have hsp2 : sp.2 = bumpPriority p v sc.2 := by
          rw [← heq]
        obtain ⟨hbk, hbv⟩ := bumpPriority_keys p v sc.2
        refine ⟨fun w hw => hkeys w (hsp2 ▸ hbk w hw), ?_⟩
        intro u hu
        rcases List.mem_cons.mp hu with hu | hu
        · exact hu ▸ hkeys v (hsp2 ▸ hbv)
        · exact htodo u (List.mem_append_left _ hu)

theorem mem_sortDescByVal_from (l : List (Str × Nat)) :
    ∀ (acc : List (Str × Nat)) (z : Str × Nat),
      z ∈ l.foldl (fun acc x => insertDesc x acc) acc ↔ z ∈ acc ∨ z ∈ l := by
  induction l with
  | nil => intro acc z; simp
  | cons x l ih =>
    intro acc z
    show z ∈ l.foldl _ (insertDesc x acc) ↔ _
    rw [ih, mem_insertDesc]
    constructor
    · rintro ((h | h) | h)
      · exact Or.inr (by simp [h])
      · exact Or.inl h
      · exact Or.inr (List.mem_cons_of_mem _ h)
    · rintro (h | h)
      · exact Or.inl (Or.inr h)
      · rcases List.mem_cons.mp h with h | h
        · exact Or.inl (Or.inl h)
        · exact Or.inr h

theorem mem_sortDescByVal (l : List (Str × Nat)) (z : Str × Nat) :
    z ∈ sortDescByVal l ↔ z ∈ l := by
  rw [sortDescByVal, mem_sortDescByVal_from]
  simp

theorem create_views_to_create_empty :
    ∀ (fuel : Nat) (reg : Registry) (st st' : SyncState),
      create_views fuel reg st = some st' →
      st'.views_to_be_created = [] := by
  intro fuel
  induction fuel with
  | zero =>
    intro reg st st' h
    unfold create_views at h
    by_cases he : st.views_to_be_created.isEmpty
    · rw [if_pos he] at h
      obtain rfl := Option.some.inj h
      cases hv : st.views_to_be_created with
      | nil => rfl
      | cons a l => rw [hv] at he; simp at he
    · rw [if_neg he] at h
      simp at h
  | succ fuel ih =>
    intro reg st st' h
    unfold create_views at h
    by_cases he : st.views_to_be_created.isEmpty
    · rw [if_pos he] at h
      obtain rfl := Option.some.inj h
      cases hv : st.views_to_be_created with
      | nil => rfl
      | cons a l => rw [hv] at he; simp at he
    · rw [if_neg he] at h
      obtain ⟨stp, _, hrec⟩ := Option.bind_eq_some.mp h
      exact ih reg stp st' hrec

theorem activeFor_save_same (L : List MaterializedViewMigrations)
    (r : MaterializedViewMigrations) (hr : r.deleted = false) :
    activeFor (saveMigration L r) r.app r.view_name = [r] := by
  rw [saveMigration_active_eq L r hr, activeFor_append,
    activeFor_map_supersede_same, activeFor_singleton_self r hr]
  rfl

theorem activeFor_save_other (L : List MaterializedViewMigrations)
    (r : MaterializedViewMigrations) (hr : r.deleted = false) {a m : Str}
    (hne : ¬(a = r.app ∧ m = r.view_name)) :
    activeFor (saveMigration L r) a m = activeFor L a m := by
  rw [saveMigration_active_eq L r hr, activeFor_append,
    activeFor_map_supersede_other r hne, activeFor_singleton_other r hne,
    List.append_nil]

theorem entryDone_save (L : List MaterializedViewMigrations)
    (e : (Str × Str) × ViewDefinitionRecord) (hash1 : Str)
    (hh : hash1 = definitionHash e.2) :
    entryDone (saveMigration L ⟨e.1.1, e.1.2, hash1, false⟩) e := by
  unfold entryDone
  have hsame : activeFor (saveMigration L ⟨e.1.1, e.1.2, hash1, false⟩)
      e.1.1 e.1.2 = [⟨e.1.1, e.1.2, hash1, false⟩] :=
    activeFor_save_same L ⟨e.1.1, e.1.2, hash1, false⟩ rfl
  rw [hsame]
  simp [hh]

theorem create_view_preserves_invariant (reg : Registry) (st : SyncState)
    (v : Str) {st2 : SyncState} {b : Bool}
    (hU : ∀ e ∈ reg, noUnderscore e.1.2)
    (hD : (reg.map Prod.fst).Nodup)
    (hF : ∀ e ∈ reg, cleanDefinition e.2)
    (h : create_view reg st v = some (st2, b))
    (hinv : SyncInvariant reg st) :
    SyncInvariant reg st2 ∧
    st2.views_to_be_deleted = st.views_to_be_deleted ∧
    st2.created_views = st.created_views ∧
    (b = true → ∀ e ∈ reg, get_view_name e.1.1 e.1.2 = v →
      entryDone st2.ledger e) ∧
    (∀ w ∈ st2.views_to_be_created, w ∈ st.views_to_be_created) := by
  obtain ⟨hinvA, hinvD, hinvB, hinvC, hinvL⟩ := hinv
  rcases create_view_cases reg st v h with ⟨hb, hst | hst⟩ |
    ⟨hb, vd, am, fm, hlk, hsep, hfm, hex, hst⟩
  · subst hst
    refine ⟨⟨?_, hinvD, hinvB, hinvC, hinvL⟩, rfl, rfl, ?_, ?_⟩
    · intro e he
      rcases hinvA e he with hc | hr | hd
      · by_cases hv : get_view_name e.1.1 e.1.2 = v
        · exact Or.inr (Or.inl (hv ▸ mem_insertU_self _ _))
        · exact Or.inl ((List.mem_erase_of_ne hv).mpr hc)
      · exact Or.inr (Or.inl ((mem_insertU_iff _ _ _).mpr (Or.inl hr)))
      · exact Or.inr (Or.inr hd)
    · intro htrue
      rw [htrue] at hb
      cases hb
    · intro w hw
      exact List.mem_of_mem_erase hw
  · subst hst
    refine ⟨⟨hinvA, hinvD, hinvB, hinvC, hinvL⟩, rfl, rfl,
      ?_, fun w hw => hw⟩
    intro htrue
    rw [htrue] at hb
    cases hb
  · subst hst
    obtain ⟨e0, he0, hj0, hv0⟩ := lookupRegistry_spec hlk
    have hclean : cleanDefinition vd := hv0 ▸ hF e0 he0
    obtain ⟨fm2, hfm2, hhash2, _⟩ := cleanDefinition_format hclean
    have heqfm : fm = fm2 := Option.some.inj (hfm.symm.trans hfm2)
    subst heqfm
    have ham : am = (e0.1.1, e0.1.2) := by
      have h1 : splitAtLastSep underscoreChar
          (get_view_name e0.1.1 e0.1.2) = some (e0.1.1, e0.1.2) :=
        splitAtLastSep_append (hU e0 he0) e0.1.1
      rw [hj0] at h1
      exact Option.some.inj (hsep.symm.trans h1)
    subst ham
    have hrow : (⟨(e0.1.1, e0.1.2).1, (e0.1.1, e0.1.2).2,
        get_hash_from_string fm, false⟩ : MaterializedViewMigrations) =
        ⟨e0.1.1, e0.1.2, get_hash_from_string fm, false⟩ := rfl
    have hhash0 : get_hash_from_string fm = definitionHash e0.2 := by
      rw [hv0]
      exact hhash2
    have hdone0 : ∀ e ∈ reg, get_view_name e.1.1 e.1.2 = v →
        entryDone (saveMigration st.ledger
          ⟨(e0.1.1, e0.1.2).1, (e0.1.1, e0.1.2).2,
            get_hash_from_string fm, false⟩) e := by
      intro e he hj
      have hee : e = e0 :=
        registry_entry_of_join_eq reg hU hD e he e0 he0 (hj.trans hj0.symm)
      subst hee
      exact entryDone_save st.ledger e (get_hash_from_string fm) hhash0
    have hother : ∀ e ∈ reg, get_view_name e.1.1 e.1.2 ≠ v →
        activeFor (saveMigration st.ledger
          ⟨(e0.1.1, e0.1.2).1, (e0.1.1, e0.1.2).2,
            get_hash_from_string fm, false⟩) e.1.1 e.1.2 =
        activeFor st.ledger e.1.1 e.1.2 := by
      intro e he hj
      refine activeFor_save_other st.ledger _ rfl ?_
      intro hpair
      obtain ⟨h1, h2⟩ := hpair
      have hfst : e.1 = e0.1 := Prod.ext h1 h2
      have hee : e = e0 := nodup_fst_inj hD e he e0 he0 hfst
      rw [hee] at hj
      exact hj hj0
    refine ⟨⟨?_, ?_, ?_, hinvC, ?_⟩, rfl, rfl, ?_, fun w hw => hw⟩
    · intro e he
      by_cases hj : get_view_name e.1.1 e.1.2 = v
      · exact Or.inr (Or.inr (hdone0 e he hj))
      · rcases hinvA e he with hc | hr | hd
        · exact Or.inl hc
        · exact Or.inr (Or.inl hr)
        · refine Or.inr (Or.inr ?_)
          unfold entryDone at hd ⊢
          rw [hother e he hj]
          exact hd
    · intro e he hcre
      by_cases hj : get_view_name e.1.1 e.1.2 = v
      · exact hdone0 e he hj
      · unfold entryDone
        rw [hother e he hj]
        exact hinvD e he hcre
    · intro r hr hract
      rcases saveMigration_active_mem st.ledger _ rfl r hr hract with
        hrr | hrl
      · subst hrr
        refine Or.inl ?_
        show get_view_name e0.1.1 e0.1.2 ∈ registryNames reg
        exact mem_registryNames reg e0 he0
      · exact hinvB r hrl hract
    · intro r hr
      rcases saveMigration_view_name st.ledger _ r hr with hrv | ⟨y, hy, hyv⟩
      · rw [hrv]
        show noUnderscore e0.1.2
        exact hU e0 he0
      · rw [hyv]
        exact hinvL y hy
    · intro _
      exact hdone0

theorem create_views_pass_preserves (reg : Registry)
    (hU : ∀ e ∈ reg, noUnderscore e.1.2)
    (hD : (reg.map Prod.fst).Nodup)
    (hF : ∀ e ∈ reg, cleanDefinition e.2) :
    ∀ (l : List Str) (st st' : SyncState),
      create_views_pass reg l st = some st' →
      SyncInvariant reg st →
      SyncInvariant reg st' ∧
      st'.views_to_be_deleted = st.views_to_be_deleted := by
  intro l
  induction l with
  | nil =>
    intro st st' h hinv
    obtain rfl := Option.some.inj h
    exact ⟨hinv, rfl⟩
  | cons v l ih =>
    intro st st' h hinv
    obtain ⟨hinvA, hinvD, hinvB, hinvC, hinvL⟩ := hinv
    unfold create_views_pass at h
    by_cases hcr : v ∈ st.created_views
    · rw [if_pos hcr] at h
      have hinv2 : SyncInvariant reg
          { st with views_to_be_created := st.views_to_be_created.erase v } := by
        refine ⟨?_, hinvD, hinvB, hinvC, hinvL⟩
        intro e he
        rcases hinvA e he with hc | hr | hd
        · by_cases hv : get_view_name e.1.1 e.1.2 = v
          · exact Or.inr (Or.inr (hinvD e he (hv ▸ hcr)))
          · exact Or.inl ((List.mem_erase_of_ne hv).mpr hc)
        · exact Or.inr (Or.inl hr)
        · exact Or.inr (Or.inr hd)
      exact ih { st with views_to_be_created := st.views_to_be_created.erase v }
        st' h hinv2
    · rw [if_neg hcr] at h
      cases hcv : create_view reg st v with
      | none => rw [hcv] at h; simp at h
      | some stb =>
        obtain ⟨st2, b⟩ := stb
        rw [hcv] at h
        obtain ⟨hinv2, hdel2, hcre2, hdone2, _⟩ :=
          create_view_preserves_invariant reg st v hU hD hF hcv
            ⟨hinvA, hinvD, hinvB, hinvC, hinvL⟩
        cases b with
        | false =>
          obtain ⟨hinv3, hdel3⟩ := ih _ st' h hinv2
          exact ⟨hinv3, hdel3.trans hdel2⟩
        | true =>
          obtain ⟨hinv2A, hinv2D, hinv2B, hinv2C, hinv2L⟩ := hinv2
          have hinv3 : SyncInvariant reg
              { st2 with
                  created_views := insertU st2.created_views v,
                  views_to_be_created := st2.views_to_be_created.erase v } := by
            refine ⟨?_, ?_, hinv2B, hinv2C, hinv2L⟩
            · intro e he
              rcases hinv2A e he with hc | hr | hd
              · by_cases hv : get_view_name e.1.1 e.1.2 = v
                · exact Or.inr (Or.inr (hdone2 rfl e he hv))
                · exact Or.inl ((List.mem_erase_of_ne hv).mpr hc)
              · exact Or.inr (Or.inl hr)
              · exact Or.inr (Or.inr hd)
            · intro e he hcre
              rcases (mem_insertU_iff _ _ _).mp hcre with hcre | hcre
              · exact hinv2D e he hcre
              · exact hdone2 rfl e he hcre
          obtain ⟨hinv4, hdel4⟩ := ih _ st' h hinv3
          exact ⟨hinv4, hdel4.trans hdel2⟩

theorem create_views_preserves (reg : Registry)
    (hU : ∀ e ∈ reg, noUnderscore e.1.2)
    (hD : (reg.map Prod.fst).Nodup)
    (hF : ∀ e ∈ reg, cleanDefinition e.2) :
    ∀ (fuel : Nat) (st st' : SyncState),
      create_views fuel reg st = some st' →
      SyncInvariant reg st →
      SyncInvariant reg st' ∧
      st'.views_to_be_deleted = st.views_to_be_deleted := by
  intro fuel
  induction fuel with
  | zero =>
    intro st st' h hinv
    unfold create_views at h
    by_cases he : st.views_to_be_created.isEmpty
    · rw [if_pos he] at h
      obtain rfl := Option.some.inj h
      exact ⟨hinv, rfl⟩
    · rw [if_neg he] at h
      simp at h
  | succ fuel ih =>
    intro st st' h hinv
    unfold create_views at h
    by_cases he : st.views_to_be_created.isEmpty
    · rw [if_pos he] at h
      obtain rfl := Option.some.inj h
      exact ⟨hinv, rfl⟩
    · rw [if_neg he] at h
      obtain ⟨stp, hp, hrec⟩ := Option.bind_eq_some.mp h
      obtain ⟨hinvp, hdelp⟩ :=
        create_views_pass_preserves reg hU hD hF _ st stp hp hinv
      obtain ⟨hinv2, hdel2⟩ := ih stp st' hrec hinvp
      exact ⟨hinv2, hdel2.trans hdelp⟩

theorem mem_fst_sortDescByVal (l : List (Str × Nat)) (v : Str)
    (h : v ∈ l.map Prod.fst) : v ∈ (sortDescByVal l).map Prod.fst := by
  obtain ⟨kv, hkv, heq⟩ := List.mem_map.mp h
  exact List.mem_map.mpr ⟨kv, (mem_sortDescByVal l kv).mpr hkv, heq⟩

theorem recreate_view_preserves (fuel : Nat) (edges : List Edge)
    (reg : Registry)
    (hU : ∀ e ∈ reg, noUnderscore e.1.2)
    (hD : (reg.map Prod.fst).Nodup)
    (hF : ∀ e ∈ reg, cleanDefinition e.2)
    (st : SyncState) (v : Str) {st' : SyncState}
    (h : recreate_view fuel edges reg st v = some st')
    (hinv : SyncInvariant reg st) :
    SyncInvariant reg st' ∧
    st'.views_to_be_deleted = st.views_to_be_deleted ∧
    (∀ w ∈ st'.views_to_be_created, w ∈ st.views_to_be_created) := by
  unfold recreate_view at h
  cases hdv : delete_view fuel edges st v true with
  | none => rw [hdv] at h; simp at h
  | some res =>
    cases res with
    | error e => rw [hdv] at h; simp at h
    | ok p =>
      obtain ⟨st2, deleted⟩ := p
      rw [hdv] at h
      obtain ⟨pr, ex, hst2⟩ := delete_view_ok_shape fuel edges st v true hdv
      subst hst2
      have hinv2 : SyncInvariant reg
          { st with recreation_priority := pr, existing := ex } := hinv
      cases deleted with
      | false =>
        simp only [Bool.not_false, if_true] at h
        obtain rfl := Option.some.inj h
        exact ⟨hinv2, rfl, fun w hw => hw⟩
      | true =>
        simp only [Bool.not_true, Bool.false_eq_true, if_false] at h
        cases hcv : create_view reg
            { st with recreation_priority := pr, existing := ex } v with
        | none => rw [hcv] at h; simp at h
        | some stb =>
          obtain ⟨st3, b⟩ := stb
          rw [hcv] at h
          obtain ⟨hinv3, hdel3, hcre3, hdone3, hsub3⟩ :=
            create_view_preserves_invariant reg _ v hU hD hF hcv hinv2
          cases b with
          | false =>
            obtain rfl := Option.some.inj h
            exact ⟨hinv3, hdel3, hsub3⟩
          | true =>
            obtain rfl := Option.some.inj h
            obtain ⟨hinv3A, hinv3D, hinv3B, hinv3C, hinv3L⟩ := hinv3
            refine ⟨⟨?_, hinv3D, hinv3B, hinv3C, hinv3L⟩, hdel3, hsub3⟩
            intro e he
            rcases hinv3A e he with hc | hr | hd
            · exact Or.inl hc
            · by_cases hv : get_view_name e.1.1 e.1.2 = v
              · exact Or.inr (Or.inr (hdone3 rfl e he hv))
              · exact Or.inr (Or.inl ((List.mem_erase_of_ne hv).mpr hr))
            · exact Or.inr (Or.inr hd)

theorem recreate_views_pass_preserves (fuel : Nat) (edges : List Edge)
    (reg : Registry)
    (hU : ∀ e ∈ reg, noUnderscore e.1.2)
    (hD : (reg.map Prod.fst).Nodup)
    (hF : ∀ e ∈ reg, cleanDefinition e.2) :
    ∀ (l : List Str) (st st' : SyncState),
      recreate_views_pass fuel edges reg l st = some st' →
      SyncInvariant reg st →
      SyncInvariant reg st' ∧
      st'.views_to_be_deleted = st.views_to_be_deleted ∧
      (∀ w ∈ st'.views_to_be_created, w ∈ st.views_to_be_created) := by
  intro l
  induction l with
  | nil =>
    intro st st' h hinv
    obtain rfl := Option.some.inj h
    exact ⟨hinv, rfl, fun w hw => hw⟩
  | cons v l ih =>
    intro st st' h hinv
    unfold recreate_views_pass at h
    obtain ⟨stm, hm, hrest⟩ := Option.bind_eq_some.mp h
    obtain ⟨hinvm, hdelm, hsubm⟩ :=
      recreate_view_preserves fuel edges reg hU hD hF st v hm hinv
    obtain ⟨hinv2, hdel2, hsub2⟩ := ih stm st' hrest hinvm
    exact ⟨hinv2, hdel2.trans hdelm, fun w hw => hsubm w (hsub2 w hw)⟩

theorem recreate_views_preserves (fuel : Nat) (edges : List Edge)
    (reg : Registry)
    (hU : ∀ e ∈ reg, noUnderscore e.1.2)
    (hD : (reg.map Prod.fst).Nodup)
    (hF : ∀ e ∈ reg, cleanDefinition e.2)
    (st : SyncState) {st' : SyncState}
    (h : recreate_views fuel edges reg st = some st')
    (hinv : SyncInvariant reg st) :
    SyncInvariant reg st' ∧
    st'.views_to_be_deleted = st.views_to_be_deleted ∧
    (∀ w ∈ st'.views_to_be_created, w ∈ st.views_to_be_created) := by
  unfold recreate_views at h
  cases hs : get_view_list_sorted_by_dependencies fuel edges
      st.views_to_be_recreated st.recreation_priority with
  | none => rw [hs] at h; simp at h
  | some sp =>
    simp only [hs] at h
    unfold get_view_list_sorted_by_dependencies at hs
    obtain ⟨dp, hdp, heq⟩ := Option.map_eq_some'.mp hs
    obtain ⟨hkeys, htodo⟩ := expand_views_keys fuel edges [] _ _ _ _ hdp
    have hsp1 : sp.1 = sortDescByVal dp.2 := by
      rw [← heq]
    obtain ⟨hinvA, hinvD, hinvB, hinvC, hinvL⟩ := hinv
    have hinvm : SyncInvariant reg
        { st with
            views_to_be_recreated := sp.1.map (fun kv => kv.1),
            recreation_priority := sp.2 } := by
      refine ⟨?_, hinvD, hinvB, hinvC, hinvL⟩
      intro e he
      rcases hinvA e he with hc | hr | hd
      · exact Or.inl hc
      · refine Or.inr (Or.inl ?_)
        show get_view_name e.1.1 e.1.2 ∈ sp.1.map (fun kv => kv.1)
        rw [hsp1]
        exact mem_fst_sortDescByVal dp.2 _ (htodo _ hr)
      · exact Or.inr (Or.inr hd)
    exact recreate_views_pass_preserves fuel edges reg hU hD hF
      (sp.1.map (fun kv => kv.1))
      { st with
          views_to_be_recreated := sp.1.map (fun kv => kv.1),
          recreation_priority := sp.2 } st' h hinvm

theorem delete_views_pass_preserves (fuel : Nat) (edges : List Edge)
    (reg : Registry) :
    ∀ (l : List Str) (st st' : SyncState),
      delete_views_pass fuel edges l st = some st' →
      SyncInvariant reg st →
      st.views_to_be_deleted.Nodup →
      (∀ w ∈ st.views_to_be_deleted, w ∈ l) →
      (∀ w ∈ l, w ∉ registryNames reg) →
      SyncInvariant reg st' ∧
      st'.views_to_be_deleted = [] ∧
      st'.views_to_be_created = st.views_to_be_created ∧
      st'.views_to_be_recreated = st.views_to_be_recreated := by
  intro l
  induction l with
  | nil =>
    intro st st' h hinv hnd hsub _
    obtain rfl := Option.some.inj h
    refine ⟨hinv, ?_, rfl, rfl⟩
    rw [List.eq_nil_iff_forall_not_mem]
    intro w hw
    exact absurd (hsub w hw) (by simp)
  | cons v rest ih =>
    intro st st' h hinv hnd hsub hlC
    unfold delete_views_pass at h
    cases hdv : delete_view fuel edges st v false with
    | none => rw [hdv] at h; simp at h
    | some res =>
      cases res with
      | error e => rw [hdv] at h; simp at h
      | ok p =>
        obtain ⟨st2, db⟩ := p
        rw [hdv] at h
        obtain ⟨pr, ex, hst2⟩ := delete_view_ok_shape fuel edges st v false hdv
        subst hst2
        cases hsep : separate_app_name_and_view_name v with
        | none => simp [hsep] at h
        | some am =>
          simp only [hsep] at h
          obtain ⟨hinvA, hinvD, hinvB, hinvC, hinvL⟩ := hinv
          have hvnames : v ∉ registryNames reg := hlC v (by simp)
          have hvjoin : v = get_view_name am.1 am.2 :=
            (splitAtLastSep_eq_some hsep).1
          have hpair_ne : ∀ e ∈ reg, ¬(e.1.1 = am.1 ∧ e.1.2 = am.2) := by
            intro e he ⟨h1, h2⟩
            refine hvnames ?_
            rw [hvjoin, ← h1, ← h2]
            exact mem_registryNames reg e he
          have hinv3 : SyncInvariant reg
              { st with
                  recreation_priority := pr, existing := ex,
                  ledger := markPairDeleted st.ledger am.1 am.2,
                  deleted_views := insertU st.deleted_views v,
                  views_to_be_deleted := st.views_to_be_deleted.erase v } := by
            refine ⟨?_, ?_, ?_, ?_, ?_⟩
            · intro e he
              rcases hinvA e he with hc | hr | hd
              · exact Or.inl hc
              · exact Or.inr (Or.inl hr)
              · refine Or.inr (Or.inr ?_)
                unfold entryDone at hd ⊢
                show (activeFor (markPairDeleted st.ledger am.1 am.2)
                    e.1.1 e.1.2).map _ = _
                rw [activeFor_markPairDeleted_other st.ledger
                  (hpair_ne e he)]
                exact hd
            · intro e he hcre
              unfold entryDone
              show (activeFor (markPairDeleted st.ledger am.1 am.2)
                  e.1.1 e.1.2).map _ = _
              rw [activeFor_markPairDeleted_other st.ledger (hpair_ne e he)]
              exact hinvD e he hcre
            · intro r hr hract
              obtain ⟨hrmem, hrpair⟩ :=
                markPairDeleted_not_active st.ledger am.1 am.2 r hr hract
              rcases hinvB r hrmem hract with hn | hdel
              · exact Or.inl hn
              · refine Or.inr ?_
                show _ ∈ st.views_to_be_deleted.erase v
                have hne : get_view_name r.app r.view_name ≠ v := by
                  intro heq
                  have hu : noUnderscore r.view_name := hinvL r hrmem
                  have hsp : splitAtLastSep underscoreChar
                      (get_view_name r.app r.view_name) =
                      some (r.app, r.view_name) :=
                    splitAtLastSep_append hu r.app
                  rw [heq] at hsp
                  have ham2 := Option.some.inj (hsep.symm.trans hsp)
                  refine hrpair ⟨?_, ?_⟩
                  · exact (congrArg Prod.fst ham2).symm
                  · exact (congrArg Prod.snd ham2).symm
                exact (List.mem_erase_of_ne hne).mpr hdel
            · intro w hw
              exact hinvC w (List.mem_of_mem_erase hw)
            · intro r hr
              obtain ⟨y, hy, hyv⟩ :=
                markPairDeleted_view_name st.ledger am.1 am.2 r hr
              rw [hyv]
              exact hinvL y hy
          have hnd3 : (st.views_to_be_deleted.erase v).Nodup :=
            List.Nodup.erase v hnd
          have hsub3 : ∀ w ∈ st.views_to_be_deleted.erase v, w ∈ rest := by
            intro w hw
            obtain ⟨hwne, hwmem⟩ := (List.Nodup.mem_erase_iff hnd).mp hw
            rcases List.mem_cons.mp (hsub w hwmem) with hww | hww
            · exact absurd hww hwne
            · exact hww
          obtain ⟨hinv4, hdel4, hc4, hr4⟩ := ih _ st' h hinv3 hnd3 hsub3
            (fun w hw => hlC w (List.mem_cons_of_mem _ hw))
          exact ⟨hinv4, hdel4, hc4, hr4⟩

theorem insertU_nodup (l : List Str) (v : Str) (h : l.Nodup) :
    (insertU l v).Nodup := by
  unfold insertU
  by_cases hm : v ∈ l
  · rwa [if_pos hm]
  · rw [if_neg hm]
    simp [List.nodup_append, h, hm]

theorem get_previous_some_some
    {ledger : List MaterializedViewMigrations} {a m ph : Str}
    (h : get_previous_view_definition_hash ledger a m = some (some ph)) :
    ∃ x, activeFor ledger a m = [x] ∧ x.hash = ph := by
  unfold get_previous_view_definition_hash at h
  cases hav : activeFor ledger a m with
  | nil => rw [hav] at h; simp at h
  | cons x rest =>
    cases rest with
    | nil =>
      rw [hav] at h
      simp only [Option.some.injEq] at h
      exact ⟨x, rfl, by simpa using h⟩
    | cons y rest2 => rw [hav] at h; simp at h

theorem markStep_mono {ledger : List MaterializedViewMigrations}
    {tctr out : List Str × List Str}
    {e : (Str × Str) × ViewDefinitionRecord}
    (h : markStep ledger tctr e = some out) :
    (∀ w ∈ tctr.1, w ∈ out.1) ∧ (∀ w ∈ tctr.2, w ∈ out.2) := by
  unfold markStep at h
  cases hmh : markHash e.2 with
  | none => rw [hmh] at h; simp at h
  | some h1 =>
    cases hpv : get_previous_view_definition_hash ledger e.1.1 e.1.2 with
    | none => rw [hmh, hpv] at h; simp at h
    | some prev =>
      cases prev with
      | none =>
        simp only [hmh, hpv, Option.some.injEq] at h
        subst h
        exact ⟨fun w hw => (mem_insertU_iff _ _ _).mpr (Or.inl hw),
          fun w hw => hw⟩
      | some ph =>
        simp only [hmh, hpv] at h
        by_cases heq : ph = h1
        · rw [if_pos heq] at h
          obtain rfl := Option.some.inj h
          exact ⟨fun w hw => hw, fun w hw => hw⟩
        · rw [if_neg heq] at h
          obtain rfl := Option.some.inj h
          exact ⟨fun w hw => hw,
            fun w hw => (mem_insertU_iff _ _ _).mpr (Or.inl hw)⟩

theorem mark_fold_establishes (ledger : List MaterializedViewMigrations) :
    ∀ (entries : Registry) (acc out : List Str × List Str),
      entries.foldlM (markStep ledger) acc = some out →
      (∀ w ∈ acc.1, w ∈ out.1) ∧ (∀ w ∈ acc.2, w ∈ out.2) ∧
      (∀ e ∈ entries, cleanDefinition e.2 →
        get_view_name e.1.1 e.1.2 ∈ out.1 ∨
        get_view_name e.1.1 e.1.2 ∈ out.2 ∨ entryDone ledger e) := by
  intro entries
  induction entries with
  | nil =>
    intro acc out h
    obtain rfl := Option.some.inj h
    exact ⟨fun w hw => hw, fun w hw => hw, fun e he => absurd he (by simp)⟩
  | cons e es ih =>
    intro acc out h
    simp only [List.foldlM_cons] at h
    obtain ⟨acc1, hstep, hrest⟩ := Option.bind_eq_some.mp h
    obtain ⟨hm1, hm2, hmem⟩ := ih acc1 out hrest
    obtain ⟨hs1, hs2⟩ := markStep_mono hstep
    refine ⟨fun w hw => hm1 w (hs1 w hw), fun w hw => hm2 w (hs2 w hw), ?_⟩
    intro e2 he2 hclean
    rcases List.mem_cons.mp he2 with he2 | he2
    · subst he2
      unfold markStep at hstep
      obtain ⟨fm, hfm, hhash, hmark⟩ := cleanDefinition_format hclean
      cases hpv : get_previous_view_definition_hash ledger e2.1.1 e2.1.2 with
      | none => rw [hmark, hpv] at hstep; simp at hstep
      | some prev =>
        cases prev with
        | none =>
          simp only [hmark, hpv, Option.some.injEq] at hstep
          subst hstep
          exact Or.inl (hm1 _ (mem_insertU_self _ _))
        | some ph =>
          simp only [hmark, hpv] at hstep
          by_cases heq : ph = definitionHash e2.2
          · refine Or.inr (Or.inr ?_)
            obtain ⟨x, hx, hxh⟩ := get_previous_some_some hpv
            unfold entryDone
            rw [hx]
            simp [hxh, heq]
          · rw [if_neg heq] at hstep
            obtain rfl := Option.some.inj hstep
            exact Or.inr (Or.inl (hm2 _ (mem_insertU_self _ _)))
    · exact hmem e2 he2 hclean

theorem mark_fold_done (ledger : List MaterializedViewMigrations) :
    ∀ entries : Registry,
      (∀ e ∈ entries, cleanDefinition e.2) →
      (∀ e ∈ entries, entryDone ledger e) →
      entries.foldlM (markStep ledger) ([], []) = some ([], []) := by
  intro entries
  induction entries with
  | nil => intro _ _; rfl
  | cons e es ih =>
    intro hclean hdone
    simp only [List.foldlM_cons]
    have hstep : markStep ledger ([], []) e = some ([], []) := by
      unfold markStep
      obtain ⟨fm, hfm, hhash, hmark⟩ :=
        cleanDefinition_format (hclean e (by simp))
      obtain ⟨x, hx, hxh⟩ := map_eq_singleton (hdone e (by simp))
      have hpv : get_previous_view_definition_hash ledger e.1.1 e.1.2 =
          some (some x.hash) := by
        unfold get_previous_view_definition_hash
        rw [hx]
      simp only [hmark, hpv]
      rw [if_pos hxh]
    rw [hstep]
    exact ih (fun e2 he2 => hclean e2 (List.mem_cons_of_mem _ he2))
      (fun e2 he2 => hdone e2 (List.mem_cons_of_mem _ he2))

theorem markDel_fold_spec (reg : Registry) :
    ∀ (rows : List MaterializedViewMigrations) (acc : List Str),
      (∀ w ∈ acc, w ∉ registryNames reg) → acc.Nodup →
      (∀ w ∈ rows.foldl (markDeleteStep reg) acc, w ∉ registryNames reg) ∧
      (rows.foldl (markDeleteStep reg) acc).Nodup ∧
      (∀ w ∈ acc, w ∈ rows.foldl (markDeleteStep reg) acc) ∧
      (∀ r ∈ rows, r.deleted = false →
        get_view_name r.app r.view_name ∈ registryNames reg ∨
        get_view_name r.app r.view_name ∈
          rows.foldl (markDeleteStep reg) acc) := by
  intro rows
  induction rows with
  | nil =>
    intro acc hC hN
    exact ⟨hC, hN, fun w hw => hw, fun r hr => absurd hr (by simp)⟩
  | cons r rows ih =>
    intro acc hC hN
    simp only [List.foldl_cons]
    have hstep : ∀ w ∈ markDeleteStep reg acc r, w ∉ registryNames reg := by
      intro w hw
      unfold markDeleteStep at hw
      by_cases hd : r.deleted
      · rw [if_pos hd] at hw; exact hC w hw
      · rw [if_neg hd] at hw
        by_cases hn : get_view_name r.app r.view_name ∈ registryNames reg
        · rw [if_pos hn] at hw; exact hC w hw
        · rw [if_neg hn] at hw
          rcases (mem_insertU_iff _ _ _).mp hw with hw | hw
          · exact hC w hw
          · exact hw ▸ hn
    have hstepN : (markDeleteStep reg acc r).Nodup := by
      unfold markDeleteStep
      by_cases hd : r.deleted
      · rwa [if_pos hd]
      · rw [if_neg hd]
        by_cases hn : get_view_name r.app r.view_name ∈ registryNames reg
        · rwa [if_pos hn]
        · rw [if_neg hn]
          exact insertU_nodup _ _ hN
    have hstepM : ∀ w ∈ acc, w ∈ markDeleteStep reg acc r := by
      intro w hw
      unfold markDeleteStep
      by_cases hd : r.deleted
      · rwa [if_pos hd]
      · rw [if_neg hd]
        by_cases hn : get_view_name r.app r.view_name ∈ registryNames reg
        · rwa [if_pos hn]
        · rw [if_neg hn]
          exact (mem_insertU_iff _ _ _).mpr (Or.inl hw)
    obtain ⟨ih1, ih2, ih3, ih4⟩ := ih (markDeleteStep reg acc r) hstep hstepN
    refine ⟨ih1, ih2, fun w hw => ih3 w (hstepM w hw), ?_⟩
    intro r2 hr2 hact
    rcases List.mem_cons.mp hr2 with hr2 | hr2
    · subst hr2
      by_cases hn : get_view_name r2.app r2.view_name ∈ registryNames reg
      · exact Or.inl hn
      · refine Or.inr (ih3 _ ?_)
        unfold markDeleteStep
        rw [if_neg (by simp [hact]), if_neg hn]
        exact mem_insertU_self _ _
    · exact ih4 r2 hr2 hact

theorem markDel_fold_none (reg : Registry) :
    ∀ (rows : List MaterializedViewMigrations) (acc : List Str),
      (∀ r ∈ rows, r.deleted = false →
        get_view_name r.app r.view_name ∈ registryNames reg) →
      rows.foldl (markDeleteStep reg) acc = acc := by
  intro rows
  induction rows with
  | nil => intro acc _; rfl
  | cons r rows ih =>
    intro acc hB
    simp only [List.foldl_cons]
    have hstep : markDeleteStep reg acc r = acc := by
      unfold markDeleteStep
      by_cases hd : r.deleted
      · rw [if_pos hd]
      · rw [if_neg hd, if_pos (hB r (by simp) (by
          cases hb : r.deleted
          · rfl
          · exact absurd hb hd))]
    rw [hstep]
    exact ih acc (fun r2 hr2 => hB r2 (List.mem_cons_of_mem _ hr2))

theorem create_views_empty (fuel : Nat) (reg : Registry) (st : SyncState)
    (h : st.views_to_be_created = []) :
    create_views fuel reg st = some st := by
  cases fuel with
  | zero =>
    unfold create_views
    rw [if_pos (by simp [h])]
  | succ fuel =>
    unfold create_views
    rw [if_pos (by simp [h])]

theorem expand_views_nil (fuel : Nat) (edges : List Edge) (done : List Str)
    (p : List (Str × Nat)) :
    expand_views fuel edges done [] p = some (done, p) := by
  cases fuel <;> rfl

theorem process_no_changes (fuel : Nat) (reg : Registry) (edges : List Edge)
    (L : List MaterializedViewMigrations) (E : List Str)
    (hm : mark_to_be_applied_new_views reg L = some ([], []))
    (hd : mark_to_be_deleted_old_views reg L = []) :
    process_materialized_views fuel reg edges L E =
      some ⟨[], [], [], [], [], [], [], L, E⟩ := by
  unfold process_materialized_views
  simp only [hm, hd]
  rw [create_views_empty fuel reg _ rfl]
  rw [Option.some_bind]
  unfold recreate_views get_view_list_sorted_by_dependencies
  rw [expand_views_nil]
  rfl

/-- C1 amended: provided every registered model name is underscore-free,
registered pairs are distinct, every definition hashes identically in the
drift check and the record write (clean formatting), every initial ledger
row has an underscore-free view_name, and the first run completes with an
empty pending-recreation set, then after the first run every registered
view hash matches its active ledger hash and every active ledger row maps
to a registry name, so a second run marks nothing and performs zero
creations, zero recreations and zero deletions, leaving the ledger and
the database untouched. -/
theorem process_materialized_views_idempotent (fuel : Nat) (reg : Registry)
    (edges : List Edge) (ledger0 : List MaterializedViewMigrations)
    (existing0 : List Str) (st1 : SyncState)
    (hU : ∀ e ∈ reg, noUnderscore e.1.2)
    (hD : (reg.map Prod.fst).Nodup)
    (hF : ∀ e ∈ reg, cleanDefinition e.2)
    (hL : ∀ r ∈ ledger0, noUnderscore r.view_name)
    (hRun : process_materialized_views fuel reg edges ledger0 existing0 =
      some st1)
    (hRec : st1.views_to_be_recreated = []) :
    mark_to_be_applied_new_views reg st1.ledger = some ([], []) ∧
    mark_to_be_deleted_old_views reg st1.ledger = [] ∧
    process_materialized_views fuel reg edges st1.ledger st1.existing =
      some ⟨[], [], [], [], [], [], [], st1.ledger, st1.existing⟩ := by
  unfold process_materialized_views at hRun
  cases hm : mark_to_be_applied_new_views reg ledger0 with
  | none => rw [hm] at hRun; simp at hRun
  | some tctr =>
    simp only [hm] at hRun
    obtain ⟨stc, hc, hRun2⟩ := Option.bind_eq_some.mp hRun
    obtain ⟨strc, hr, hdel⟩ := Option.bind_eq_some.mp hRun2
    have hm2 : reg.foldlM (markStep ledger0) ([], []) = some tctr := hm
    obtain ⟨_, _, hA0⟩ := mark_fold_establishes ledger0 reg ([], []) tctr hm2
    obtain ⟨hC0, hN0, _, hB0⟩ := markDel_fold_spec reg ledger0 []
      (fun w hw => absurd hw (by simp)) List.nodup_nil
    have hinv0 : SyncInvariant reg
        ⟨tctr.1, tctr.2, mark_to_be_deleted_old_views reg ledger0,
          [], [], [], [], ledger0, existing0⟩ := by
      refine ⟨?_, ?_, ?_, ?_, ?_⟩
      · intro e he
        exact hA0 e he (hF e he)
      · intro e he hcre
        exact absurd hcre (by simp)
      · intro r hrmem hract
        exact hB0 r hrmem hract
      · intro w hw
        exact hC0 w hw
      · exact hL
    obtain ⟨hinvc, hdelc⟩ :=
      create_views_preserves reg hU hD hF fuel _ stc hc hinv0
    have hcEmpty : stc.views_to_be_created = [] :=
      create_views_to_create_empty fuel reg _ stc hc
    obtain ⟨hinvr, hdelr, hsubr⟩ :=
      recreate_views_preserves fuel edges reg hU hD hF stc hr hinvc
    have hrEmpty : strc.views_to_be_created = [] := by
      rw [List.eq_nil_iff_forall_not_mem]
      intro w hw
      have := hsubr w hw
      rw [hcEmpty] at this
      exact absurd this (by simp)
    have hdeleq : strc.views_to_be_deleted =
        mark_to_be_deleted_old_views reg ledger0 := hdelr.trans hdelc
    have hN1 : strc.views_to_be_deleted.Nodup := by
      rw [hdeleq]
      exact hN0
    have hC1 : ∀ w ∈ strc.views_to_be_deleted, w ∉ registryNames reg := by
      intro w hw
      rw [hdeleq] at hw
      exact hC0 w hw
    obtain ⟨hinv1, hdel1, hcre1, hrec1⟩ :=
      delete_views_pass_preserves fuel edges reg strc.views_to_be_deleted
        strc st1 hdel hinvr hN1 (fun w hw => hw) hC1
    have hdone : ∀ e ∈ reg, entryDone st1.ledger e := by
      intro e he
      obtain ⟨hinv1A, _, _, _, _⟩ := hinv1
      rcases hinv1A e he with hcm | hrm | hd
      · rw [hcre1, hrEmpty] at hcm
        exact absurd hcm (by simp)
      · rw [hRec] at hrm
        exact absurd hrm (by simp)
      · exact hd
    have hmark2 : mark_to_be_applied_new_views reg st1.ledger =
        some ([], []) :=
      mark_fold_done st1.ledger reg hF hdone
    have hB1 : ∀ r ∈ st1.ledger, r.deleted = false →
        get_view_name r.app r.view_name ∈ registryNames reg := by
      intro r hrmem hract
      obtain ⟨_, _, hinv1B, _, _⟩ := hinv1
      rcases hinv1B r hrmem hract with hn | hdl
      · exact hn
      · rw [hdel1] at hdl
        exact absurd hdl (by simp)
    have hmdel2 : mark_to_be_deleted_old_views reg st1.ledger = [] :=
      markDel_fold_none reg st1.ledger [] hB1
    exact ⟨hmark2, hmdel2,
      process_no_changes fuel reg edges st1.ledger st1.existing hmark2 hmdel2⟩

/-- C1 counterexample: with a registered model name containing an
underscore, the first run (on an empty database) completes, but its
ledger row is keyed by the wrong pair, so the second run marks the view
for creation again and ends having recreated it: the second run performs
a non-zero number of actions, refuting the claim as stated. -/
theorem second_run_acts_on_underscore_model :
    (process_materialized_views 20 c1Registry [] [] []).isSome = true ∧
    ((process_materialized_views 20 c1Registry [] [] []).bind
      (fun st1 => mark_to_be_applied_new_views c1Registry st1.ledger)) ≠
      some ([], []) ∧
    ((process_materialized_views 20 c1Registry [] [] []).bind
      (fun st1 => (process_materialized_views 20 c1Registry [] st1.ledger
        st1.existing).map (fun st2 => st2.recreated_views))) ≠ some [] := by
  decide

/-- Witness for C1 amended at a concrete one-view registry: the second
run marks nothing and changes nothing. -/
theorem process_materialized_views_idempotent_witness :
    mark_to_be_applied_new_views c1GoodRegistry
        ((process_materialized_views 20 c1GoodRegistry [] [] []).get
          (by decide)).ledger = some ([], []) ∧
    mark_to_be_deleted_old_views c1GoodRegistry
        ((process_materialized_views 20 c1GoodRegistry [] [] []).get
          (by decide)).ledger = [] ∧
    process_materialized_views 20 c1GoodRegistry []
        ((process_materialized_views 20 c1GoodRegistry [] [] []).get
          (by decide)).ledger
        ((process_materialized_views 20 c1GoodRegistry [] [] []).get
          (by decide)).existing =
      some ⟨[], [], [], [], [], [], [],
        ((process_materialized_views 20 c1GoodRegistry [] [] []).get
          (by decide)).ledger,
        ((process_materialized_views 20 c1GoodRegistry [] [] []).get
          (by decide)).existing⟩ :=
  process_materialized_views_idempotent 20 c1GoodRegistry [] [] []
    ((process_materialized_views 20 c1GoodRegistry [] [] []).get (by decide))
    (fun e he => by
      rw [List.mem_singleton.mp he]
      show noUnderscore ("myview".toList)
      unfold noUnderscore
      decide)
    (by decide)
    (fun e he => by
      rw [List.mem_singleton.mp he]
      unfold cleanDefinition
      rw [if_pos (by decide)]
      decide)
    (fun r hr => absurd hr (by simp))
    (Option.some_get (by decide)).symm
    (by decide)
